import Mathlib

/-!
# Verification of the Quoridor engine and its AI search procedures

Shallow embedding of the repository's game-rule engine (`game_logic.py`)
and AI search procedures (`ai_algorithm.py`), with proofs of the claimed
properties.

Conventions:
* Python `int` coordinates are modelled as `ℤ`.
* Python list indexing is modelled by `pyIdx`, which, like Python,
  accepts indices in `[-9, 8]` for a list of length 9 (negative indices
  wrap) and raises `IndexError` (modelled as `Option.none`) otherwise.
* A Python function that can raise an exception returns `Option`;
  `none` means an exception propagated.  Whenever an exception can occur
  only after zero mutations (verified against the source line order),
  collapsing the exceptional run to `none` is faithful.
* `float('inf')` results of the path search are modelled as `(⊤ : ℕ∞)`.
-/

namespace Quoridor

/-- The four movement directions `'U','D','L','R'`. -/
inductive Dir
  | U | D | L | R
deriving DecidableEq

/-- Cell occupancy: `"empty"`, `"player1"` or `"player2"`. -/
inductive Occ
  | empty | player1 | player2
deriving DecidableEq

/-- The two players. -/
inductive Player
  | P1 | P2
deriving DecidableEq

/-- The occupant string written for a player (`self.turn` is written into
`occupant` on a successful move). -/
def occOf : Player → Occ
  | .P1 => .player1
  | .P2 => .player2

/-- `Cell`: occupant plus the four direction permissions
(`game_logic.py`, class `Cell`). -/
structure Cell where
  occupant : Occ
  dirs : Dir → Bool

/-- A freshly constructed cell: no occupant, all directions enabled
(`Cell.__init__`). -/
def initCell : Cell := ⟨.empty, fun _ => true⟩

/-- The full game state (`QuoridorGame.__init__` fields): 9×9 grid,
wall list, player position map, turn. -/
structure Game where
  grid : Fin 9 → Fin 9 → Cell
  walls : List (ℤ × ℤ × String)
  pos : Player → ℤ × ℤ
  turn : Player

/-- Python list indexing for a list of length 9: indices in `[0,8]` are
direct, indices in `[-9,-1]` wrap (Python negative indexing), anything
else raises `IndexError` (`none`). -/
def pyIdx (i : ℤ) : Option (Fin 9) :=
  if h : 0 ≤ i ∧ i < 9 then some ⟨i.toNat, by omega⟩
  else if h2 : -9 ≤ i ∧ i < 0 then some ⟨(i + 9).toNat, by omega⟩
  else none

/-- `self.board.grid[x][y]` with Python indexing semantics. -/
def gridGet (g : Game) (x y : ℤ) : Option Cell := do
  let i ← pyIdx x
  let j ← pyIdx y
  pure (g.grid i j)

/-- Update one cell of a grid. -/
def setCell (G : Fin 9 → Fin 9 → Cell) (i j : Fin 9) (c : Cell) :
    Fin 9 → Fin 9 → Cell :=
  fun a b => if a = i ∧ b = j then c else G a b

/-- `self.board.grid[x][y].occupant = o` with Python indexing. -/
def setOcc (g : Game) (x y : ℤ) (o : Occ) : Option Game := do
  let i ← pyIdx x
  let j ← pyIdx y
  pure { g with grid := setCell g.grid i j ⟨o, (g.grid i j).dirs⟩ }

/-- `self.board.grid[x][y].directions[d] = b` with Python indexing. -/
def setDir (g : Game) (x y : ℤ) (d : Dir) (b : Bool) : Option Game := do
  let i ← pyIdx x
  let j ← pyIdx y
  let c : Cell :=
    ⟨(g.grid i j).occupant, fun d' => if d' = d then b else (g.grid i j).dirs d'⟩
  pure { g with grid := setCell g.grid i j c }

/-- The `DIRECTIONS` dict lookup: a successful lookup identifies one of
the four direction keys; any other key raises `KeyError` (`none`). -/
def parseDir (s : String) : Option Dir :=
  if s = "U" then some .U
  else if s = "D" then some .D
  else if s = "L" then some .L
  else if s = "R" then some .R
  else none

/-- The coordinate offsets stored in `DIRECTIONS`. -/
def delta : Dir → ℤ × ℤ
  | .U => (-1, 0)
  | .D => (1, 0)
  | .L => (0, -1)
  | .R => (0, 1)

/-- The canonical string for a direction key. -/
def dirStr : Dir → String
  | .U => "U"
  | .D => "D"
  | .L => "L"
  | .R => "R"

/-- `Board.set_borders`: disable `L` in column 0, `R` in column 8,
`U` in row 0, `D` in row 8 (two `range(9)` loops). -/
def setBorders (G : Fin 9 → Fin 9 → Cell) : Fin 9 → Fin 9 → Cell :=
  let G1 := (List.finRange 9).foldl
    (fun acc x =>
      let a1 := setCell acc x 0 ⟨(acc x 0).occupant,
        fun d' => if d' = Dir.L then false else (acc x 0).dirs d'⟩
      setCell a1 x 8 ⟨(a1 x 8).occupant,
        fun d' => if d' = Dir.R then false else (a1 x 8).dirs d'⟩) G
  (List.finRange 9).foldl
    (fun acc y =>
      let a1 := setCell acc 0 y ⟨(acc 0 y).occupant,
        fun d' => if d' = Dir.U then false else (acc 0 y).dirs d'⟩
      setCell a1 8 y ⟨(a1 8 y).occupant,
        fun d' => if d' = Dir.D then false else (a1 8 y).dirs d'⟩) G1

/-- `Board.__init__`: fresh cells, borders, then the two starting
occupants at `(0,4)` (player2) and `(8,4)` (player1). -/
def initGrid : Fin 9 → Fin 9 → Cell :=
  let G := setBorders (fun _ _ => initCell)
  let G1 := setCell G 0 4 ⟨.player2, (G 0 4).dirs⟩
  setCell G1 8 4 ⟨.player1, (G1 8 4).dirs⟩

/-- `QuoridorGame.__init__`. -/
def initGame : Game :=
  { grid := initGrid
    walls := []
    pos := fun p => match p with | .P1 => (8, 4) | .P2 => (0, 4)
    turn := .P1 }

/-- `QuoridorGame.switch_turn`. -/
def switchTurn (g : Game) : Game :=
  { g with turn := if g.turn = .P1 then .P2 else .P1 }

/-- `QuoridorGame.move_player`, after the `DIRECTIONS[direction]`
lookup has produced `d`.  Follows the source line by line; `none` models
an `IndexError` on `grid[x][y]` (impossible while the stored positions
are on the board). -/
def moveCore (g : Game) (d : Dir) : Option (Bool × Game) := do
  let x := (g.pos g.turn).1
  let y := (g.pos g.turn).2
  let dx := (delta d).1
  let dy := (delta d).2
  let nx := x + dx
  let ny := y + dy
  if ¬ (0 ≤ nx ∧ nx < 9 ∧ 0 ≤ ny ∧ ny < 9) then pure (false, g)
  else do
    let src ← gridGet g x y
    if src.dirs d = false then pure (false, g)
    else do
      let tgt ← gridGet g nx ny
      if tgt.occupant ≠ .empty then pure (false, g)
      else do
        let g1 ← setOcc g x y .empty
        let g2 ← setOcc g1 nx ny (occOf g.turn)
        pure (true, { g2 with
          pos := fun p => if p = g.turn then (nx, ny) else g2.pos p })

/-- `QuoridorGame.move_player(direction)`: the `DIRECTIONS[direction]`
dict lookup raises `KeyError` (`none`) for any key outside
`{'U','D','L','R'}`. -/
def movePlayer (g : Game) (direction : String) : Option (Bool × Game) :=
  match parseDir direction with
  | none => none
  | some d => moveCore g d

/-- `QuoridorGame.place_wall(x, y, orientation)`.  The source checks only
`y >= 8 or x >= 8` (resp. `x >= 8 or y >= 8`), never a lower bound; an
orientation other than `'H'`/`'V'` skips both the check and the flag
updates and still appends the wall.  `none` models an `IndexError`
(only possible on the very first cell access, before any mutation). -/
def placeWall (g : Game) (x y : ℤ) (o : String) : Option (Bool × Game) :=
  if o = "H" then
    if 8 ≤ y ∨ 8 ≤ x then some (false, g)
    else do
      let g1 ← setDir g x y .D false
      let g2 ← setDir g1 x (y + 1) .D false
      let g3 ← setDir g2 (x + 1) y .U false
      let g4 ← setDir g3 (x + 1) (y + 1) .U false
      pure (true, { g4 with walls := g4.walls ++ [(x, y, o)] })
  else if o = "V" then
    if 8 ≤ x ∨ 8 ≤ y then some (false, g)
    else do
      let g1 ← setDir g x y .R false
      let g2 ← setDir g1 (x + 1) y .R false
      let g3 ← setDir g2 x (y + 1) .L false
      let g4 ← setDir g3 (x + 1) (y + 1) .L false
      pure (true, { g4 with walls := g4.walls ++ [(x, y, o)] })
  else
    some (true, { g with walls := g.walls ++ [(x, y, o)] })

/-- `QuoridorGame.check_win`. -/
def checkWin (g : Game) : Option Player :=
  if (g.pos .P1).1 = 0 then some .P1
  else if (g.pos .P2).1 = 8 then some .P2
  else none

/-! ## Operation sequences on the game state -/

/-- One call into the game-state machine, as issued by the transport
layer: a move request (with its raw direction string), a wall request,
a turn switch, or a win query (`check_win` is a pure query). -/
inductive Op
  | move (s : String)
  | wall (x y : ℤ) (o : String)
  | switchT
  | checkW

/-- Apply one operation; the state after a failed move or wall request
is the unchanged state the source returns alongside `False`.  `none`
models an uncaught exception (which, as verified against the source,
can only be raised before any mutation). -/
def applyOp (g : Game) : Op → Option Game
  | .move s => (movePlayer g s).map Prod.snd
  | .wall x y o => (placeWall g x y o).map Prod.snd
  | .switchT => some (switchTurn g)
  | .checkW => some g

/-- Run a sequence of operations. -/
def runOps (g : Game) : List Op → Option Game
  | [] => some g
  | op :: ops => (applyOp g op).bind fun g' => runOps g' ops

/-- States reachable from the initial game by operation sequences. -/
inductive Reachable : Game → Prop
  | init : Reachable initGame
  | step (g : Game) (op : Op) (g' : Game) :
      Reachable g → applyOp g op = some g' → Reachable g'

/-- Repeated `move_player('U')` calls, collecting the returned booleans
(the scenario of the spec's end-to-end test property). -/
def traceU (g : Game) : ℕ → Option (List Bool × Game)
  | 0 => some ([], g)
  | n + 1 => do
    let (bs, g') ← traceU g n
    let (b, g'') ← movePlayer g' "U"
    pure (bs ++ [b], g'')

/-! ## The A* search of `ai_algorithm.py`

`a_star(board, start, goal_rows)` works on the `board` component of a
game-state snapshot; the only part of a cell it reads is the direction
dictionary, so a board is modelled as `ℤ → ℤ → Dir → Bool` (the
algorithm only ever indexes it at in-grid cells). -/

/-- A board as read by `a_star`: the direction permission of a cell.
Out-of-grid queries never occur during the search. -/
abbrev ABoard := ℤ → ℤ → Dir → Bool

/-- The board snapshot of a game, as `game_state()` serialises it
(Python list indexing on both axes). -/
def boardOf (g : Game) : ABoard := fun r c d =>
  match pyIdx r, pyIdx c with
  | some i, some j => (g.grid i j).dirs d
  | _, _ => false

/-- A cell coordinate pair as used by the search. -/
abbrev Pos := ℤ × ℤ

/-- A frontier entry `(priority, cell)` as pushed into the
`PriorityQueue`. -/
abbrev Entry := ℕ × Pos

/-- The in-bounds test `0 <= r < 9 and 0 <= c < 9`. -/
def inGrid (p : Pos) : Prop := 0 ≤ p.1 ∧ p.1 < 9 ∧ 0 ≤ p.2 ∧ p.2 < 9

instance (p : Pos) : Decidable (inGrid p) := by
  unfold inGrid
  infer_instance

/-- The neighbouring cell in a direction. -/
def stepPos (c : Pos) (d : Dir) : Pos :=
  (c.1 + (delta d).1, c.2 + (delta d).2)

/-- Python tuple comparison `(p1, (r1, c1)) < (p2, (r2, c2))`, the
order by which the `PriorityQueue` (a binary heap of tuples) pops its
minimum. -/
def entLT (a b : Entry) : Prop :=
  a.1 < b.1 ∨ (a.1 = b.1 ∧ (a.2.1 < b.2.1 ∨ (a.2.1 = b.2.1 ∧ a.2.2 < b.2.2)))

instance (a b : Entry) : Decidable (entLT a b) := by
  unfold entLT
  infer_instance

/-- Pop the heap minimum: the least entry in the tuple order, removed
from the collection (`frontier.get()`); `none` on an empty frontier. -/
def popMin (l : List Entry) : Option (Entry × List Entry) :=
  match l with
  | [] => none
  | x :: xs =>
    let m := xs.foldl (fun b e => if entLT e b then e else b) x
    some (m, (x :: xs).erase m)

/-- The dictionary `cost_so_far`, as a partial map. -/
abbrev CostMap := Pos → Option ℕ

/-- The heuristic term `abs(goal_rows[0] - row)` of the pushed
priority.  (`goal_rows` is always nonempty where the program calls the
search; `headI` returns `0` for `[]`, a case the source would crash
on and that no theorem below exercises.) -/
def hfun (goals : List ℤ) (r : ℤ) : ℕ := (goals.headI - r).natAbs

/-- The body of the `for direction, allowed in ... .items()` loop for
one direction: relax the neighbour, updating `cost_so_far` and pushing
`(new_cost + heuristic, next_cell)` when the path improves.  `v0` is
`cost_so_far[current]` (constant throughout the four iterations, since
a cell is never its own neighbour). -/
def relaxDir (B : ABoard) (goals : List ℤ) (cur : Pos) (v0 : ℕ) (d : Dir)
    (acc : List Entry × CostMap) : List Entry × CostMap :=
  if B cur.1 cur.2 d then
    let nxt := stepPos cur d
    if inGrid nxt then
      let newCost := v0 + 1
      match acc.2 nxt with
      | none =>
        (acc.1 ++ [(newCost + hfun goals nxt.1, nxt)],
         fun p => if p = nxt then some newCost else acc.2 p)
      | some v =>
        if newCost < v then
          (acc.1 ++ [(newCost + hfun goals nxt.1, nxt)],
           fun p => if p = nxt then some newCost else acc.2 p)
        else acc
    else acc
  else acc

/-- The `while not frontier.empty()` loop of `a_star`, with explicit
fuel.  A proof below shows the supplied fuel is never exhausted, so the
`⊤` returned on fuel 0 is never produced.  On popping a goal-row cell
the source returns `cost_so_far[current]` (always present — invariant
`F` below); the `none` fallback is dead code.  The dead `came_from`
dictionary (written once at initialisation, never read) is omitted. -/
def aStarLoop (B : ABoard) (goals : List ℤ) :
    ℕ → List Entry → CostMap → ℕ∞
  | 0, _, _ => ⊤
  | fuel + 1, frontier, cost =>
    match popMin frontier with
    | none => ⊤
    | some ((_, cur), rest) =>
      if cur.1 ∈ goals then
        match cost cur with
        | some v => (v : ℕ∞)
        | none => ⊤
      else
        let v0 := match cost cur with | some v => v | none => 0
        let st := relaxDir B goals cur v0 Dir.R
          (relaxDir B goals cur v0 Dir.L
            (relaxDir B goals cur v0 Dir.D
              (relaxDir B goals cur v0 Dir.U (rest, cost))))
        aStarLoop B goals fuel st.1 st.2

/-- `a_star(board, start, goal_rows)`: best-first search from `start`;
returns the cost at the first goal-row pop, `⊤` (`float('inf')`) when
the frontier empties.  The fuel `40000` strictly dominates the loop
measure (proved below), so it is never exhausted. -/
def aStar (B : ABoard) (start : Pos) (goals : List ℤ) : ℕ∞ :=
  aStarLoop B goals 40000 [(0, start)]
    (fun p => if p = start then some 0 else none)

/-- Admissible step sequences: `Walk B a b n` holds when the search
graph (step from `c` in direction `d` allowed iff the flag of `c` for
`d` is set and the destination is in the grid) lets one go from `a` to
`b` in exactly `n` single steps, starting inside the grid. -/
inductive Walk (B : ABoard) : Pos → Pos → ℕ → Prop
  | nil (a : Pos) : inGrid a → Walk B a a 0
  | snoc {a c : Pos} {n : ℕ} (d : Dir) : Walk B a c n →
      B c.1 c.2 d = true → inGrid (stepPos c d) → Walk B a (stepPos c d) (n + 1)

/-- Reaching some cell of goal row `g` from `s` in `n` steps. -/
def GoalReach (B : ABoard) (s : Pos) (g : ℤ) (n : ℕ) : Prop :=
  ∃ c : Pos, Walk B s c n ∧ c.1 = g

/-- Reaching some cell whose row lies in the goal-row list `goals`
("the exact minimum number of admissible single steps to any goal-row
cell" for a general goal set, as the spec promises). -/
def GoalReachL (B : ABoard) (s : Pos) (goals : List ℤ) (n : ℕ) : Prop :=
  ∃ c : Pos, Walk B s c n ∧ c.1 ∈ goals

/-! ### Proof vocabulary for the A* correctness argument -/

/-- The 81 grid cells. -/
def grid81 : Finset Pos := Finset.Icc (0 : ℤ) 8 ×ˢ Finset.Icc (0 : ℤ) 8

/-- Cells whose recorded cost is strictly below `v`. -/
def costBelow (cost : CostMap) (v : ℕ) (q : Pos) : Bool :=
  match cost q with
  | some w => w < v
  | none => false

/-- Potential of a cell: its recorded cost, `81` when absent (recorded
costs stay `≤ 80`, so every relaxation strictly lowers the total
potential). -/
def pot (cost : CostMap) (q : Pos) : ℕ :=
  match cost q with
  | some w => w
  | none => 81

/-- Total potential over the grid. -/
def Phi (cost : CostMap) : ℕ := ∑ q ∈ grid81, pot cost q

/-- The loop measure: every iteration of the search loop strictly
decreases it (a pop shortens the frontier; every push strictly lowers
`Phi`). -/
def kMeasure (frontier : List Entry) (cost : CostMap) : ℕ :=
  5 * Phi cost + frontier.length

/-- The loop invariant of the search from `s` towards goal row `g`.
`sound`: recorded costs are realised by admissible walks; `costS`: the
start keeps cost 0; `front`: every frontier entry's cell has a recorded
cost at most its priority; `bound`: a recorded cost is at most the
number of cells with strictly smaller recorded cost (hence `≤ 80`);
`reach`: every recorded cell either still has a frontier entry with
priority at most cost + heuristic, or is a fully relaxed non-goal cell
whose neighbours all have cost at most one more. -/
structure AStarInv (B : ABoard) (s : Pos) (g : ℤ)
    (frontier : List Entry) (cost : CostMap) : Prop where
  sound : ∀ p v, cost p = some v → Walk B s p v
  costS : cost s = some 0
  front : ∀ e ∈ frontier, ∃ v, cost e.2 = some v ∧ v ≤ e.1
  bound : ∀ p v, cost p = some v →
    v ≤ (grid81.filter (fun q => costBelow cost v q)).card
  reach : ∀ p v, cost p = some v →
    (∃ e ∈ frontier, e.2 = p ∧ e.1 ≤ v + hfun [g] p.1) ∨
    (p.1 ≠ g ∧ ∀ d : Dir, B p.1 p.2 d = true → inGrid (stepPos p d) →
      ∃ v2, cost (stepPos p d) = some v2 ∧ v2 ≤ v + 1)

/-- The intermediate invariant while the four relaxations of a popped
non-goal cell `cur` run: `reach` is only promised for other cells, and
`done` records the directions already relaxed. -/
structure MidInv (B : ABoard) (s : Pos) (g : ℤ) (cur : Pos) (v0 : ℕ)
    (ds : List Dir) (frontier : List Entry) (cost : CostMap) : Prop where
  sound : ∀ p v, cost p = some v → Walk B s p v
  costS : cost s = some 0
  front : ∀ e ∈ frontier, ∃ v, cost e.2 = some v ∧ v ≤ e.1
  bound : ∀ p v, cost p = some v →
    v ≤ (grid81.filter (fun q => costBelow cost v q)).card
  cur_eq : cost cur = some v0
  others : ∀ p v, cost p = some v → p ≠ cur →
    (∃ e ∈ frontier, e.2 = p ∧ e.1 ≤ v + hfun [g] p.1) ∨
    (p.1 ≠ g ∧ ∀ d : Dir, B p.1 p.2 d = true → inGrid (stepPos p d) →
      ∃ v2, cost (stepPos p d) = some v2 ∧ v2 ≤ v + 1)
  done : ∀ d ∈ ds, B cur.1 cur.2 d = true → inGrid (stepPos cur d) →
    ∃ v2, cost (stepPos cur d) = some v2 ∧ v2 ≤ v0 + 1

/-! ## The adversarial search and rollout evaluator of `ai_algorithm.py`

`minimax` and `mcts` receive a state dictionary.  The fields the code
reads are `board`, `player_positions`, and `winner`; the only field the
recursion ever writes is `game_state` (overwritten with the response of
the live `send_move` request, modelled by an oracle of call index).
`deepcopy` gives each branch value semantics, which the functional
embedding has for free. -/

/-- The state dictionary as consumed by the AI procedures.
`gameState` is the opaque `"game_state"` entry; `winner` is truthy for
a player string, falsy for `None`. -/
structure AIState where
  board : ABoard
  pos1 : Pos
  pos2 : Pos
  winner : Option Player
  gameState : ℕ

/-- Python float values produced by the evaluator: integers, the two
infinities, and `nan` (the result of `inf - inf`). -/
inductive Fl
  | int (n : ℤ)
  | pinf
  | ninf
  | nan
deriving DecidableEq

/-- `opponent_path - ai_path` in Python float arithmetic, where each
operand is an `a_star` result (`ℕ` or `float('inf')`). -/
def fSub : ℕ∞ → ℕ∞ → Fl
  | some m, some n => .int ((m : ℤ) - (n : ℤ))
  | some _, none => .ninf
  | none, some _ => .pinf
  | none, none => .nan

/-- Python `a > b` on these float values (`nan` compares false). -/
def flGt : Fl → Fl → Bool
  | .int m, .int n => m > n
  | .int _, .ninf => true
  | .pinf, .int _ => true
  | .pinf, .ninf => true
  | _, _ => false

/-- Python `a <= b` on these float values (`nan` compares false). -/
def flLe : Fl → Fl → Bool
  | .int m, .int n => m ≤ n
  | .int _, .pinf => true
  | .ninf, .int _ => true
  | .ninf, .pinf => true
  | .pinf, .pinf => true
  | .ninf, .ninf => true
  | _, _ => false

/-- `heuristic(state) = a_star(board, pos2, [8]) - a_star(board, pos1, [0])`. -/
def heuristic (st : AIState) : Fl :=
  fSub (aStar st.board st.pos2 [8]) (aStar st.board st.pos1 [0])

/-- `minimax(state, depth, alpha, beta, maximizing)`, by structural
recursion on `depth`.  The `for move_dir in moves` loop over the
literal list `['U','D','L','R']` is unrolled; after each iteration the
`if beta <= alpha: break` test stops the remaining iterations.  The
oracle `o` supplies the `"game_state"` payloads of the live `send_move`
responses (call `k` is the `k`-th request issued); the recursion only
ever stores them into the `gameState` field, which no read depends on.
Returns `((value, best_move), next call index)`. -/
def mmNode (o : ℕ → ℕ) : ℕ → AIState → Fl → Fl → Bool → ℕ →
    (Fl × Option Dir) × ℕ
  | 0, st, _, _, _, k => ((heuristic st, none), k)
  | dp + 1, st, alpha, beta, maxim, k =>
    if st.winner.isSome then ((heuristic st, none), k)
    else if maxim then
      -- move 'U'
      let r1 := mmNode o dp { st with gameState := o k } alpha beta false (k + 1)
      let e1 := r1.1.1
      let m1 := if flGt e1 Fl.ninf then e1 else Fl.ninf
      let b1 := if flGt e1 Fl.ninf then some Dir.U else none
      let a1 := if flGt e1 alpha then e1 else alpha
      if flLe beta a1 then ((m1, b1), r1.2) else
      -- move 'D'
      let r2 := mmNode o dp { st with gameState := o r1.2 } a1 beta false (r1.2 + 1)
      let e2 := r2.1.1
      let m2 := if flGt e2 m1 then e2 else m1
      let b2 := if flGt e2 m1 then some Dir.D else b1
      let a2 := if flGt e2 a1 then e2 else a1
      if flLe beta a2 then ((m2, b2), r2.2) else
      -- move 'L'
      let r3 := mmNode o dp { st with gameState := o r2.2 } a2 beta false (r2.2 + 1)
      let e3 := r3.1.1
      let m3 := if flGt e3 m2 then e3 else m2
      let b3 := if flGt e3 m2 then some Dir.L else b2
      let a3 := if flGt e3 a2 then e3 else a2
      if flLe beta a3 then ((m3, b3), r3.2) else
      -- move 'R'
      let r4 := mmNode o dp { st with gameState := o r3.2 } a3 beta false (r3.2 + 1)
      let e4 := r4.1.1
      let m4 := if flGt e4 m3 then e4 else m3
      let b4 := if flGt e4 m3 then some Dir.R else b3
      ((m4, b4), r4.2)
    else
      -- minimizing: best_move is never assigned, `None` is returned
      let r1 := mmNode o dp { st with gameState := o k } alpha beta true (k + 1)
      let e1 := r1.1.1
      let m1 := if flGt Fl.pinf e1 then e1 else Fl.pinf
      let c1 := if flGt beta e1 then e1 else beta
      if flLe c1 alpha then ((m1, none), r1.2) else
      let r2 := mmNode o dp { st with gameState := o r1.2 } alpha c1 true (r1.2 + 1)
      let e2 := r2.1.1
      let m2 := if flGt m1 e2 then e2 else m1
      let c2 := if flGt c1 e2 then e2 else c1
      if flLe c2 alpha then ((m2, none), r2.2) else
      let r3 := mmNode o dp { st with gameState := o r2.2 } alpha c2 true (r2.2 + 1)
      let e3 := r3.1.1
      let m3 := if flGt m2 e3 then e3 else m2
      let c3 := if flGt c2 e3 then e3 else c2
      if flLe c3 alpha then ((m3, none), r3.2) else
      let r4 := mmNode o dp { st with gameState := o r3.2 } alpha c3 true (r3.2 + 1)
      let e4 := r4.1.1
      let m4 := if flGt m3 e4 then e4 else m3
      ((m4, none), r4.2)

/-- Modelled from the spec: plain depth-limited minimax over the same
state, candidate-move order `{U,D,L,R}` and heuristic, with no
alpha-beta parameters and no pruning — every non-terminal node explores
all four moves. -/
def plainMM (o : ℕ → ℕ) : ℕ → AIState → Bool → ℕ → (Fl × Option Dir) × ℕ
  | 0, st, _, k => ((heuristic st, none), k)
  | dp + 1, st, maxim, k =>
    if st.winner.isSome then ((heuristic st, none), k)
    else if maxim then
      let r1 := plainMM o dp { st with gameState := o k } false (k + 1)
      let e1 := r1.1.1
      let m1 := if flGt e1 Fl.ninf then e1 else Fl.ninf
      let b1 := if flGt e1 Fl.ninf then some Dir.U else none
      let r2 := plainMM o dp { st with gameState := o r1.2 } false (r1.2 + 1)
      let e2 := r2.1.1
      let m2 := if flGt e2 m1 then e2 else m1
      let b2 := if flGt e2 m1 then some Dir.D else b1
      let r3 := plainMM o dp { st with gameState := o r2.2 } false (r2.2 + 1)
      let e3 := r3.1.1
      let m3 := if flGt e3 m2 then e3 else m2
      let b3 := if flGt e3 m2 then some Dir.L else b2
      let r4 := plainMM o dp { st with gameState := o r3.2 } false (r3.2 + 1)
      let e4 := r4.1.1
      let m4 := if flGt e4 m3 then e4 else m3
      let b4 := if flGt e4 m3 then some Dir.R else b3
      ((m4, b4), r4.2)
    else
      let r1 := plainMM o dp { st with gameState := o k } true (k + 1)
      let e1 := r1.1.1
      let m1 := if flGt Fl.pinf e1 then e1 else Fl.pinf
      let r2 := plainMM o dp { st with gameState := o r1.2 } true (r1.2 + 1)
      let e2 := r2.1.1
      let m2 := if flGt m1 e2 then e2 else m1
      let r3 := plainMM o dp { st with gameState := o r2.2 } true (r2.2 + 1)
      let e3 := r3.1.1
      let m3 := if flGt m2 e3 then e3 else m2
      let r4 := plainMM o dp { st with gameState := o r3.2 } true (r3.2 + 1)
      let e4 := r4.1.1
      let m4 := if flGt m3 e4 then e4 else m3
      ((m4, none), r4.2)

/-- The common value both searches compute at a node, as a function of
the leaf value `v` only: each level folds four copies of the child
value through the `max`/`min` accumulator that starts at `-inf`/`inf`
(a fold of equal values collapses to its first step). -/
def mmVal : ℕ → Bool → Fl → Fl
  | 0, _, v => v
  | n + 1, true, v =>
    let c := mmVal n false v
    if flGt c Fl.ninf then c else Fl.ninf
  | n + 1, false, v =>
    let c := mmVal n true v
    if flGt Fl.pinf c then c else Fl.pinf

/-- One rollout trial block of `mcts`: `simulations` iterations for a
fixed candidate move, each issuing one `send_move` call (oracle index),
overwriting the copied state's `game_state` entry, and scoring the
(unchanged) `winner` field.  Returns the accumulated score and the next
call index. -/
def mctsTrials (o : ℕ → ℕ) (st : AIState) : ℕ → ℕ → ℤ × ℕ
  | 0, k => (0, k)
  | n + 1, k =>
    let sc : ℤ :=
      if ({ st with gameState := o k } : AIState).winner = some Player.P1 then 1
      else if ({ st with gameState := o k } : AIState).winner = some Player.P2 then -1
      else 0
    let rest := mctsTrials o st n (k + 1)
    (sc + rest.1, rest.2)

/-- Python `max(scores, key=scores.get)` over the dict built with keys
in insertion order `U, D, L, R`: the first key attaining the maximal
score. -/
def pyMaxUDLR (f : Dir → ℤ) : Dir :=
  ([Dir.D, Dir.L, Dir.R]).foldl (fun b m => if f m > f b then m else b) Dir.U

/-- `mcts(state, simulations)`: for each of `U, D, L, R` in order, run
`simulations` trials, then pick the first key with maximal aggregate
score. -/
def mcts (o : ℕ → ℕ) (st : AIState) (simulations : ℕ) (k : ℕ) : Dir × ℕ :=
  let rU := mctsTrials o st simulations k
  let rD := mctsTrials o st simulations rU.2
  let rL := mctsTrials o st simulations rD.2
  let rR := mctsTrials o st simulations rL.2
  let f : Dir → ℤ := fun m =>
    match m with
    | .U => rU.1
    | .D => rD.1
    | .L => rL.1
    | .R => rR.1
  (pyMaxUDLR f, rR.2)

/-- Modelled from the spec: the per-trial score — `+1` when the
simulated outcome's winner is the AI (`player1`), `-1` when it is the
opponent, `0` otherwise.  In the code under verification the simulated
state's `winner` entry is the unchanged `winner` of the input state
(the rollout overwrites only `game_state`), so the trial score is a
function of the input state. -/
def specTrialScore (st : AIState) : ℤ :=
  if st.winner = some Player.P1 then 1
  else if st.winner = some Player.P2 then -1
  else 0

/-- Modelled from the spec: the aggregate score of a candidate move is
the sum of its per-trial scores over the trial count. -/
def specAgg (st : AIState) (trials : ℕ) : ℤ :=
  (List.range trials).foldl (fun a _ => a + specTrialScore st) 0

/-- Modelled from the spec: select the move with the highest aggregate
score, ties broken in favour of the first-encountered move in the
fixed iteration order `U, D, L, R`. -/
def specSelect (f : Dir → ℤ) : Dir :=
  let mx := max (max (f .U) (f .D)) (max (f .L) (f .R))
  if f .U = mx then .U
  else if f .D = mx then .D
  else if f .L = mx then .L
  else .R

/-! ## Statement vocabulary for the claims -/

/-- The game with one cell's occupant replaced (the effect of
`grid[i][j].occupant = o` at an in-range index). -/
def withOcc (g : Game) (i j : Fin 9) (o : Occ) : Game :=
  { g with grid := setCell g.grid i j (Cell.mk o (g.grid i j).dirs) }

/-- The game with one cell's direction flag replaced (the effect of
`grid[i][j].directions[d] = b` at an in-range index). -/
def withDir (g : Game) (i j : Fin 9) (d : Dir) (b : Bool) : Game :=
  let c : Cell :=
    ⟨(g.grid i j).occupant, fun d' => if d' = d then b else (g.grid i j).dirs d'⟩
  { g with grid := setCell g.grid i j c }

/-- The state a successful move from `(i, j)` to `(a, b)` produces:
source occupancy cleared, target occupancy set to the mover, the
mover's position entry updated. -/
def moveResult (g : Game) (i j a b : Fin 9) : Game :=
  let g2 := withOcc (withOcc g i j .empty) a b (occOf g.turn)
  { g2 with pos := fun p => if p = g.turn then ((a : ℤ), (b : ℤ)) else g2.pos p }

/-- The candidate target cell of a move from `(i, j)` in direction
`d`. -/
def moveTgt (i j : Fin 9) (d : Dir) : Pos :=
  ((i : ℤ) + (delta d).1, (j : ℤ) + (delta d).2)

/-- The three failure conditions of a move from `(i, j)`: target out of
the 9×9 bounds, direction disabled on the source cell, or target cell
occupied. -/
def MoveBlocked (g : Game) (i j : Fin 9) (d : Dir) : Prop :=
  ¬ inGrid (moveTgt i j d) ∨ (g.grid i j).dirs d = false ∨
    (∃ a b : Fin 9, ((a : ℤ), (b : ℤ)) = moveTgt i j d ∧
      (g.grid a b).occupant ≠ .empty)

/-- The full claimed contract of `move_player` for a current position
`(i, j)`: failure returns `False` with the state unchanged; success
returns `True`, clears the source occupancy, writes the mover into the
target, updates the mover's entry of the position map, and changes
nothing else (no turn switch, no wall change, no permission change). -/
def MoveClaim (g : Game) (d : Dir) (i j : Fin 9) : Prop :=
  (MoveBlocked g i j d → movePlayer g (dirStr d) = some (false, g)) ∧
  (¬ MoveBlocked g i j d →
    ∃ g' : Game, ∃ a b : Fin 9,
      ((a : ℤ), (b : ℤ)) = moveTgt i j d ∧
      movePlayer g (dirStr d) = some (true, g') ∧
      (g'.grid i j).occupant = .empty ∧
      (g'.grid a b).occupant = occOf g.turn ∧
      (∀ x y : Fin 9, ¬ (x = i ∧ y = j) → ¬ (x = a ∧ y = b) →
        (g'.grid x y).occupant = (g.grid x y).occupant) ∧
      (∀ x y : Fin 9, ∀ d' : Dir, (g'.grid x y).dirs d' = (g.grid x y).dirs d') ∧
      g'.pos g.turn = moveTgt i j d ∧
      (∀ p : Player, p ≠ g.turn → g'.pos p = g.pos p) ∧
      g'.walls = g.walls ∧
      g'.turn = g.turn)

/-- The claimed contract of `place_wall(x, y, 'H')` for a nonnegative
anchor: rejection exactly outside the 8×8 anchor space, and on success
exactly the four `H`-permissions disabled, the wall record appended,
and nothing else changed. -/
def WallClaimH (g : Game) (x y : ℤ) : Prop :=
  ((8 ≤ x ∨ 8 ≤ y) → placeWall g x y "H" = some (false, g)) ∧
  (x < 8 → y < 8 →
    ∃ g' : Game, ∃ i i1 j j1 : Fin 9,
      (i : ℤ) = x ∧ (i1 : ℤ) = x + 1 ∧ (j : ℤ) = y ∧ (j1 : ℤ) = y + 1 ∧
      placeWall g x y "H" = some (true, g') ∧
      (g'.grid i j).dirs .D = false ∧
      (g'.grid i j1).dirs .D = false ∧
      (g'.grid i1 j).dirs .U = false ∧
      (g'.grid i1 j1).dirs .U = false ∧
      (∀ a b : Fin 9, ∀ d' : Dir,
        ¬ ((a, b, d') = (i, j, Dir.D) ∨ (a, b, d') = (i, j1, Dir.D) ∨
           (a, b, d') = (i1, j, Dir.U) ∨ (a, b, d') = (i1, j1, Dir.U)) →
        (g'.grid a b).dirs d' = (g.grid a b).dirs d') ∧
      (∀ a b : Fin 9, (g'.grid a b).occupant = (g.grid a b).occupant) ∧
      g'.walls = g.walls ++ [(x, y, "H")] ∧
      g'.pos = g.pos ∧
      g'.turn = g.turn)

/-- The claimed contract of `place_wall(x, y, 'V')` for a nonnegative
anchor. -/
def WallClaimV (g : Game) (x y : ℤ) : Prop :=
  ((8 ≤ x ∨ 8 ≤ y) → placeWall g x y "V" = some (false, g)) ∧
  (x < 8 → y < 8 →
    ∃ g' : Game, ∃ i i1 j j1 : Fin 9,
      (i : ℤ) = x ∧ (i1 : ℤ) = x + 1 ∧ (j : ℤ) = y ∧ (j1 : ℤ) = y + 1 ∧
      placeWall g x y "V" = some (true, g') ∧
      (g'.grid i j).dirs .R = false ∧
      (g'.grid i1 j).dirs .R = false ∧
      (g'.grid i j1).dirs .L = false ∧
      (g'.grid i1 j1).dirs .L = false ∧
      (∀ a b : Fin 9, ∀ d' : Dir,
        ¬ ((a, b, d') = (i, j, Dir.R) ∨ (a, b, d') = (i1, j, Dir.R) ∨
           (a, b, d') = (i, j1, Dir.L) ∨ (a, b, d') = (i1, j1, Dir.L)) →
        (g'.grid a b).dirs d' = (g.grid a b).dirs d') ∧
      (∀ a b : Fin 9, (g'.grid a b).occupant = (g.grid a b).occupant) ∧
      g'.walls = g.walls ++ [(x, y, "V")] ∧
      g'.pos = g.pos ∧
      g'.turn = g.turn)

/-- The working invariant of reachable states: both stored positions
are on the board, they differ, and every cell's occupant is determined
by the position map. -/
def StateInv (g : Game) : Prop :=
  (∃ i j : Fin 9, g.pos .P1 = ((i : ℤ), (j : ℤ))) ∧
  (∃ i j : Fin 9, g.pos .P2 = ((i : ℤ), (j : ℤ))) ∧
  g.pos .P1 ≠ g.pos .P2 ∧
  ∀ a b : Fin 9, (g.grid a b).occupant =
    (if ((a : ℤ), (b : ℤ)) = g.pos .P1 then .player1
     else if ((a : ℤ), (b : ℤ)) = g.pos .P2 then .player2
     else .empty)

/-- The intermediate shape of the repeated-`U` scenario: player1 to
move, sitting at `(r, 4)` with player2 still at `(0, 4)`, consistent
occupancy, and all direction flags still those of the initial board
(moves never change flags). -/
def UState (r : ℕ) (g : Game) : Prop :=
  g.turn = Player.P1 ∧
  g.pos Player.P1 = ((r : ℤ), (4 : ℤ)) ∧
  g.pos Player.P2 = ((0 : ℤ), (4 : ℤ)) ∧
  StateInv g ∧
  ∀ (x y : Fin 9) (d' : Dir),
    (g.grid x y).dirs d' = (initGame.grid x y).dirs d'

/-- The occupancy/position consistency stated by the claim: exactly one
cell occupied by each player, distinct player positions, and the cell
at each stored position is exactly the cell occupied by that player. -/
def ConsistentState (g : Game) : Prop :=
  (∃! c : Fin 9 × Fin 9, (g.grid c.1 c.2).occupant = .player1) ∧
  (∃! c : Fin 9 × Fin 9, (g.grid c.1 c.2).occupant = .player2) ∧
  g.pos .P1 ≠ g.pos .P2 ∧
  (∀ p : Player, ∃ i j : Fin 9, g.pos p = ((i : ℤ), (j : ℤ)) ∧
    (g.grid i j).occupant = occOf p ∧
    (∀ a b : Fin 9, (g.grid a b).occupant = occOf p →
      ((a : ℤ), (b : ℤ)) = g.pos p))

/-! ## Basic lemmas about indexing and cell updates -/

theorem pyIdx_coe (i : Fin 9) : pyIdx (i : ℤ) = some i := by
  unfold pyIdx
  rcases i with ⟨v, hv⟩
  rw [dif_pos (by constructor <;> omega)]
  simp only [Option.some.injEq]
  apply Fin.ext
  simp

theorem gridGet_coe (g : Game) (i j : Fin 9) :
    gridGet g (i : ℤ) (j : ℤ) = some (g.grid i j) := by
  simp [gridGet, pyIdx_coe]

theorem setOcc_coe (g : Game) (i j : Fin 9) (o : Occ) :
    setOcc g (i : ℤ) (j : ℤ) o = some (withOcc g i j o) := by
  simp [setOcc, pyIdx_coe, withOcc]

theorem setDir_coe (g : Game) (i j : Fin 9) (d : Dir) (b : Bool) :
    setDir g (i : ℤ) (j : ℤ) d b = some (withDir g i j d b) := by
  simp [setDir, pyIdx_coe, withDir]

theorem movePlayer_core (g : Game) (d : Dir) :
    movePlayer g (dirStr d) = moveCore g d := by
  cases d <;> rfl

theorem setCell_same (G : Fin 9 → Fin 9 → Cell) (i j : Fin 9) (c : Cell) :
    setCell G i j c i j = c := by
  simp [setCell]

theorem setCell_other (G : Fin 9 → Fin 9 → Cell) (i j : Fin 9) (c : Cell)
    (a b : Fin 9) (h : ¬ (a = i ∧ b = j)) : setCell G i j c a b = G a b := by
  simp only [setCell, if_neg h]

theorem parseDir_dirStr (d : Dir) : parseDir (dirStr d) = some d := by
  cases d <;> rfl

theorem exists_fin_coe {z : ℤ} (h0 : 0 ≤ z) (h9 : z < 9) :
    ∃ a : Fin 9, (a : ℤ) = z :=
  ⟨⟨z.toNat, by omega⟩, by simp; omega⟩

/-! ### The four outcomes of `move_player` -/

theorem moveCore_oob (g : Game) (d : Dir) (i j : Fin 9)
    (hpos : g.pos g.turn = ((i : ℤ), (j : ℤ))) (h : ¬ inGrid (moveTgt i j d)) :
    moveCore g d = some (false, g) := by
  have h' : ¬ (0 ≤ (i : ℤ) + (delta d).1 ∧ (i : ℤ) + (delta d).1 < 9 ∧
      0 ≤ (j : ℤ) + (delta d).2 ∧ (j : ℤ) + (delta d).2 < 9) := by
    simpa [inGrid, moveTgt] using h
  simp only [moveCore, hpos]
  rw [if_pos h']
  rfl

theorem moveCore_flag (g : Game) (d : Dir) (i j : Fin 9)
    (hpos : g.pos g.turn = ((i : ℤ), (j : ℤ))) (hin : inGrid (moveTgt i j d))
    (hf : (g.grid i j).dirs d = false) :
    moveCore g d = some (false, g) := by
  have h' : 0 ≤ (i : ℤ) + (delta d).1 ∧ (i : ℤ) + (delta d).1 < 9 ∧
      0 ≤ (j : ℤ) + (delta d).2 ∧ (j : ℤ) + (delta d).2 < 9 := by
    simpa [inGrid, moveTgt] using hin
  simp only [moveCore, hpos]
  rw [if_neg (by simpa using h')]
  simp only [gridGet_coe, Option.bind_eq_bind, Option.some_bind]
  rw [if_pos hf]
  rfl

theorem moveCore_occupied (g : Game) (d : Dir) (i j a b : Fin 9)
    (hpos : g.pos g.turn = ((i : ℤ), (j : ℤ)))
    (hab : ((a : ℤ), (b : ℤ)) = moveTgt i j d)
    (hf : (g.grid i j).dirs d = true)
    (ho : (g.grid a b).occupant ≠ .empty) :
    moveCore g d = some (false, g) := by
  have hab1 : (a : ℤ) = (i : ℤ) + (delta d).1 := congrArg Prod.fst hab
  have hab2 : (b : ℤ) = (j : ℤ) + (delta d).2 := congrArg Prod.snd hab
  have h' : 0 ≤ (i : ℤ) + (delta d).1 ∧ (i : ℤ) + (delta d).1 < 9 ∧
      0 ≤ (j : ℤ) + (delta d).2 ∧ (j : ℤ) + (delta d).2 < 9 := by
    refine ⟨?_, ?_, ?_, ?_⟩ <;> [rw [← hab1]; rw [← hab1]; rw [← hab2]; rw [← hab2]] <;> omega
  simp only [moveCore, hpos]
  rw [if_neg (by simpa using h')]
  simp only [gridGet_coe, Option.bind_eq_bind, Option.some_bind]
  rw [if_neg (by simp [hf]), ← hab1, ← hab2, gridGet_coe, Option.some_bind,
    if_pos ho]
  rfl

theorem moveCore_success (g : Game) (d : Dir) (i j a b : Fin 9)
    (hpos : g.pos g.turn = ((i : ℤ), (j : ℤ)))
    (hab : ((a : ℤ), (b : ℤ)) = moveTgt i j d)
    (hf : (g.grid i j).dirs d = true)
    (ho : (g.grid a b).occupant = .empty) :
    moveCore g d = some (true, moveResult g i j a b) := by
  have hab1 : (a : ℤ) = (i : ℤ) + (delta d).1 := congrArg Prod.fst hab
  have hab2 : (b : ℤ) = (j : ℤ) + (delta d).2 := congrArg Prod.snd hab
  have h' : 0 ≤ (i : ℤ) + (delta d).1 ∧ (i : ℤ) + (delta d).1 < 9 ∧
      0 ≤ (j : ℤ) + (delta d).2 ∧ (j : ℤ) + (delta d).2 < 9 := by
    refine ⟨?_, ?_, ?_, ?_⟩ <;> [rw [← hab1]; rw [← hab1]; rw [← hab2]; rw [← hab2]] <;> omega
  simp only [moveCore, hpos]
  rw [if_neg (by simpa using h')]
  simp only [gridGet_coe, Option.bind_eq_bind, Option.some_bind]
  rw [if_neg (by simp [hf]), ← hab1, ← hab2, gridGet_coe, Option.some_bind,
    if_neg (by simp [ho]), setOcc_coe, Option.some_bind, setOcc_coe, Option.some_bind]
  simp only [moveResult, withOcc, Option.some.injEq, Prod.mk.injEq, true_and]
  rfl

/-! ## C1: the `move_player` contract -/

theorem src_ne_tgt {i j a b : Fin 9} {d : Dir}
    (hab : ((a : ℤ), (b : ℤ)) = moveTgt i j d) : ¬ (a = i ∧ b = j) := by
  rintro ⟨rfl, rfl⟩
  have h1 : (a : ℤ) = (a : ℤ) + (delta d).1 := congrArg Prod.fst hab
  have h2 : (b : ℤ) = (b : ℤ) + (delta d).2 := congrArg Prod.snd hab
  cases d <;> simp [delta] at h1 h2

/-- C1: for every game state whose current player's stored position is
on the board and every direction, `move_player` returns `False` with no
mutation when the target is out of bounds, the source flag is disabled,
or the target is occupied; otherwise it returns `True`, clears the
source cell, writes the mover into the target cell, updates the
mover's position entry, and changes nothing else (in particular it does
not switch the turn). -/
theorem c1_move_contract (g : Game) (d : Dir) (i j : Fin 9)
    (hpos : g.pos g.turn = ((i : ℤ), (j : ℤ))) : MoveClaim g d i j := by
  constructor
  · intro hblk
    rw [movePlayer_core]
    by_cases hin : inGrid (moveTgt i j d)
    · by_cases hdir : (g.grid i j).dirs d = false
      · exact moveCore_flag g d i j hpos hin hdir
      · rcases hblk with h | h | ⟨a, b, hab, ho⟩
        · exact absurd hin h
        · exact absurd h hdir
        · rw [Bool.not_eq_false] at hdir
          exact moveCore_occupied g d i j a b hpos hab hdir ho
    · exact moveCore_oob g d i j hpos hin
  · intro hn
    rw [MoveBlocked, not_or, not_or] at hn
    obtain ⟨hin', hdir', hocc'⟩ := hn
    rw [not_not] at hin'
    rw [Bool.not_eq_false] at hdir'
    push_neg at hocc'
    obtain ⟨a, ha⟩ := exists_fin_coe hin'.1 hin'.2.1
    obtain ⟨b, hb⟩ := exists_fin_coe hin'.2.2.1 hin'.2.2.2
    have hab : ((a : ℤ), (b : ℤ)) = moveTgt i j d := by
      rcases hx : moveTgt i j d with ⟨u, v⟩
      rw [hx] at ha hb
      simp_all
    have hocc : (g.grid a b).occupant = .empty := by
      by_contra hne
      exact hne (hocc' a b hab)
    refine ⟨moveResult g i j a b, a, b, hab, ?_, ?_, ?_, ?_, ?_, ?_, ?_, ?_, ?_⟩
    · rw [movePlayer_core]
      exact moveCore_success g d i j a b hpos hab hdir' hocc
    · have hne := src_ne_tgt hab
      simp only [moveResult, withOcc, occOf]
      rw [setCell_other _ _ _ _ _ _ (by tauto), setCell_same]
    · simp only [moveResult, withOcc, occOf]
      rw [setCell_same]
    · intro x y hxij hxab
      simp only [moveResult, withOcc]
      rw [setCell_other _ _ _ _ _ _ hxab, setCell_other _ _ _ _ _ _ hxij]
    · intro x y d'
      simp only [moveResult, withOcc]
      by_cases h1 : x = a ∧ y = b
      · obtain ⟨rfl, rfl⟩ := h1
        rw [setCell_same]
        by_cases h2 : x = i ∧ y = j
        · exact absurd h2 (src_ne_tgt hab)
        · simp only [setCell_other _ _ _ _ _ _ h2]
      · rw [setCell_other _ _ _ _ _ _ h1]
        by_cases h2 : x = i ∧ y = j
        · obtain ⟨rfl, rfl⟩ := h2
          rw [setCell_same]
        · rw [setCell_other _ _ _ _ _ _ h2]
    · simp only [moveResult, withOcc, if_pos rfl]
      exact hab
    · intro p hp
      simp only [moveResult, withOcc, if_neg hp]
    · rfl
    · rfl

/-- Witness for C1: the first `U` move of player1 from the initial
state. -/
theorem c1_move_contract_witness :
    initGame.pos initGame.turn = ((8 : ℤ), (4 : ℤ)) ∧
      MoveClaim initGame Dir.U 8 4 := by
  constructor
  · decide
  · exact c1_move_contract initGame Dir.U 8 4 (by decide)

/-! ## C2: the `place_wall` contract on H and V orientations -/

theorem withDir_dirs_hit (g : Game) (i j : Fin 9) (d : Dir) (b : Bool) :
    ((withDir g i j d b).grid i j).dirs d = b := by
  simp [withDir, setCell_same]

theorem withDir_dirs_other (g : Game) (i j : Fin 9) (d : Dir) (b : Bool)
    (a c : Fin 9) (d' : Dir) (h : ¬ (a = i ∧ c = j ∧ d' = d)) :
    ((withDir g i j d b).grid a c).dirs d' = (g.grid a c).dirs d' := by
  simp only [withDir]
  by_cases hc : a = i ∧ c = j
  · obtain ⟨rfl, rfl⟩ := hc
    rw [setCell_same]
    have hd : d' ≠ d := by tauto
    simp [hd]
  · rw [setCell_other _ _ _ _ _ _ hc]

theorem withDir_occ (g : Game) (i j : Fin 9) (d : Dir) (b : Bool)
    (a c : Fin 9) :
    ((withDir g i j d b).grid a c).occupant = (g.grid a c).occupant := by
  simp only [withDir]
  by_cases hc : a = i ∧ c = j
  · obtain ⟨rfl, rfl⟩ := hc
    rw [setCell_same]
  · rw [setCell_other _ _ _ _ _ _ hc]

theorem withDir_walls (g : Game) (i j : Fin 9) (d : Dir) (b : Bool) :
    (withDir g i j d b).walls = g.walls := rfl

theorem withDir_pos (g : Game) (i j : Fin 9) (d : Dir) (b : Bool) :
    (withDir g i j d b).pos = g.pos := rfl

theorem withDir_turn (g : Game) (i j : Fin 9) (d : Dir) (b : Bool) :
    (withDir g i j d b).turn = g.turn := rfl

theorem fin_coe_ne {i i1 : Fin 9} {x x1 : ℤ} (hi : (i : ℤ) = x)
    (hi1 : (i1 : ℤ) = x1) (h : x ≠ x1) : i ≠ i1 := by
  intro hii
  apply h
  rw [← hi, ← hi1, hii]

/-- C2 (amended to nonnegative anchors): for all nonnegative integer
anchor coordinates and both orientations, `place_wall` fails (returns
`False`, no mutation) exactly when the anchor leaves the 8×8 anchor
space, and otherwise disables exactly the four orientation-specific
permissions, appends the wall record, and changes nothing else. -/
theorem c2_wall_contract (g : Game) (x y : ℤ) (hx : 0 ≤ x) (hy : 0 ≤ y) :
    WallClaimH g x y ∧ WallClaimV g x y := by
  constructor
  -- horizontal
  · constructor
    · intro h
      rw [placeWall, if_pos rfl, if_pos (Or.symm h)]
    · intro hx8 hy8
      obtain ⟨i, hi⟩ := exists_fin_coe hx (by omega)
      obtain ⟨i1, hi1⟩ := exists_fin_coe (z := x + 1) (by omega) (by omega)
      obtain ⟨j, hj⟩ := exists_fin_coe hy (by omega)
      obtain ⟨j1, hj1⟩ := exists_fin_coe (z := y + 1) (by omega) (by omega)
      have hii : i ≠ i1 := fin_coe_ne hi hi1 (by omega)
      have hjj : j ≠ j1 := fin_coe_ne hj hj1 (by omega)
      set g1 := withDir g i j .D false with hg1
      set g2 := withDir g1 i j1 .D false with hg2
      set g3 := withDir g2 i1 j .U false with hg3
      set g4 := withDir g3 i1 j1 .U false with hg4
      have hrun : placeWall g x y "H" =
          some (true, { g4 with walls := g4.walls ++ [(x, y, "H")] }) := by
        rw [placeWall, if_pos rfl, if_neg (by omega), ← hi1, ← hj1, ← hi, ← hj,
          setDir_coe, Option.bind_eq_bind, Option.some_bind, setDir_coe,
          Option.some_bind, setDir_coe, Option.some_bind, setDir_coe,
          Option.some_bind]
        rfl
      refine ⟨_, i, i1, j, j1, hi, hi1, hj, hj1, hrun, ?_, ?_, ?_, ?_, ?_, ?_, ?_, ?_, ?_⟩
      · rw [hg4, withDir_dirs_other _ _ _ _ _ _ _ _ (by tauto),
          hg3, withDir_dirs_other _ _ _ _ _ _ _ _ (by tauto),
          hg2, withDir_dirs_other _ _ _ _ _ _ _ _ (by tauto),
          hg1, withDir_dirs_hit]
      · rw [hg4, withDir_dirs_other _ _ _ _ _ _ _ _ (by tauto),
          hg3, withDir_dirs_other _ _ _ _ _ _ _ _ (by tauto),
          hg2, withDir_dirs_hit]
      · rw [hg4, withDir_dirs_other _ _ _ _ _ _ _ _ (by tauto),
          hg3, withDir_dirs_hit]
      · rw [hg4, withDir_dirs_hit]
      · intro a b d' hnot
        push_neg at hnot
        obtain ⟨h1, h2, h3, h4⟩ := hnot
        have e1 : ¬ (a = i ∧ b = j ∧ d' = Dir.D) := by
          intro ⟨u, v, w⟩
          exact h1 (by rw [u, v, w])
        have e2 : ¬ (a = i ∧ b = j1 ∧ d' = Dir.D) := by
          intro ⟨u, v, w⟩
          exact h2 (by rw [u, v, w])
        have e3 : ¬ (a = i1 ∧ b = j ∧ d' = Dir.U) := by
          intro ⟨u, v, w⟩
          exact h3 (by rw [u, v, w])
        have e4 : ¬ (a = i1 ∧ b = j1 ∧ d' = Dir.U) := by
          intro ⟨u, v, w⟩
          exact h4 (by rw [u, v, w])
        rw [hg4, withDir_dirs_other _ _ _ _ _ _ _ _ e4,
          hg3, withDir_dirs_other _ _ _ _ _ _ _ _ e3,
          hg2, withDir_dirs_other _ _ _ _ _ _ _ _ e2,
          hg1, withDir_dirs_other _ _ _ _ _ _ _ _ e1]
      · intro a b
        rw [hg4, withDir_occ, hg3, withDir_occ, hg2, withDir_occ, hg1, withDir_occ]
      · simp [hg4, hg3, hg2, hg1, withDir_walls]
      · rw [hg4, withDir_pos, hg3, withDir_pos, hg2, withDir_pos, hg1, withDir_pos]
      · rw [hg4, withDir_turn, hg3, withDir_turn, hg2, withDir_turn, hg1, withDir_turn]
  -- vertical
  · constructor
    · intro h
      rw [placeWall, if_neg (by decide), if_pos rfl, if_pos h]
    · intro hx8 hy8
      obtain ⟨i, hi⟩ := exists_fin_coe hx (by omega)
      obtain ⟨i1, hi1⟩ := exists_fin_coe (z := x + 1) (by omega) (by omega)
      obtain ⟨j, hj⟩ := exists_fin_coe hy (by omega)
      obtain ⟨j1, hj1⟩ := exists_fin_coe (z := y + 1) (by omega) (by omega)
      have hii : i ≠ i1 := fin_coe_ne hi hi1 (by omega)
      have hjj : j ≠ j1 := fin_coe_ne hj hj1 (by omega)
      set g1 := withDir g i j .R false with hg1
      set g2 := withDir g1 i1 j .R false with hg2
      set g3 := withDir g2 i j1 .L false with hg3
      set g4 := withDir g3 i1 j1 .L false with hg4
      have hrun : placeWall g x y "V" =
          some (true, { g4 with walls := g4.walls ++ [(x, y, "V")] }) := by
        rw [placeWall, if_neg (by decide), if_pos rfl, if_neg (by omega), ← hi1,
          ← hj1, ← hi, ← hj, setDir_coe, Option.bind_eq_bind, Option.some_bind,
          setDir_coe, Option.some_bind, setDir_coe, Option.some_bind,
          setDir_coe, Option.some_bind]
        rfl
      refine ⟨_, i, i1, j, j1, hi, hi1, hj, hj1, hrun, ?_, ?_, ?_, ?_, ?_, ?_, ?_, ?_, ?_⟩
      · rw [hg4, withDir_dirs_other _ _ _ _ _ _ _ _ (by tauto),
          hg3, withDir_dirs_other _ _ _ _ _ _ _ _ (by tauto),
          hg2, withDir_dirs_other _ _ _ _ _ _ _ _ (by tauto),
          hg1, withDir_dirs_hit]
      · rw [hg4, withDir_dirs_other _ _ _ _ _ _ _ _ (by tauto),
          hg3, withDir_dirs_other _ _ _ _ _ _ _ _ (by tauto),
          hg2, withDir_dirs_hit]
      · rw [hg4, withDir_dirs_other _ _ _ _ _ _ _ _ (by tauto),
          hg3, withDir_dirs_hit]
      · rw [hg4, withDir_dirs_hit]
      · intro a b d' hnot
        push_neg at hnot
        obtain ⟨h1, h2, h3, h4⟩ := hnot
        have e1 : ¬ (a = i ∧ b = j ∧ d' = Dir.R) := by
          intro ⟨u, v, w⟩
          exact h1 (by rw [u, v, w])
        have e2 : ¬ (a = i1 ∧ b = j ∧ d' = Dir.R) := by
          intro ⟨u, v, w⟩
          exact h2 (by rw [u, v, w])
        have e3 : ¬ (a = i ∧ b = j1 ∧ d' = Dir.L) := by
          intro ⟨u, v, w⟩
          exact h3 (by rw [u, v, w])
        have e4 : ¬ (a = i1 ∧ b = j1 ∧ d' = Dir.L) := by
          intro ⟨u, v, w⟩
          exact h4 (by rw [u, v, w])
        rw [hg4, withDir_dirs_other _ _ _ _ _ _ _ _ e4,
          hg3, withDir_dirs_other _ _ _ _ _ _ _ _ e3,
          hg2, withDir_dirs_other _ _ _ _ _ _ _ _ e2,
          hg1, withDir_dirs_other _ _ _ _ _ _ _ _ e1]
      · intro a b
        rw [hg4, withDir_occ, hg3, withDir_occ, hg2, withDir_occ, hg1, withDir_occ]
      · simp [hg4, hg3, hg2, hg1, withDir_walls]
      · rw [hg4, withDir_pos, hg3, withDir_pos, hg2, withDir_pos, hg1, withDir_pos]
      · rw [hg4, withDir_turn, hg3, withDir_turn, hg2, withDir_turn, hg1, withDir_turn]

/-- Witness for C2 at the concrete anchor `(3, 3)` of the spec's wall
test property. -/
theorem c2_wall_contract_witness :
    (0 : ℤ) ≤ 3 ∧ WallClaimH initGame 3 3 ∧ WallClaimV initGame 3 3 :=
  ⟨by decide, (c2_wall_contract initGame 3 3 (by decide) (by decide)).1,
    (c2_wall_contract initGame 3 3 (by decide) (by decide)).2⟩

/-- C2 counterexample: the claim as stated fails for negative anchors —
at `(3, -1, 'H')` the anchor is outside the valid `[0,7]×[0,7]` space,
yet `place_wall` returns `True`, appends the wall record, and flips a
permission that was enabled (Python negative indexing selects column
8: `grid[3][-1].directions['D']` goes from `True` to `False`). -/
theorem c2_wall_negative_anchor_counterexample :
    (placeWall initGame 3 (-1) "H").map Prod.fst = some true ∧
      (placeWall initGame 3 (-1) "H").map (fun r => r.2.walls) =
        some [(3, -1, "H")] ∧
      (initGame.grid 3 8).dirs Dir.D = true ∧
      (placeWall initGame 3 (-1) "H").map
        (fun r => (r.2.grid 3 8).dirs Dir.D) = some false := by
  refine ⟨by decide, by decide, by decide, by decide⟩

/-! ## C4: direction permissions are monotonically blocking -/

theorem setOcc_dirs {g g' : Game} {x y : ℤ} {o : Occ}
    (h : setOcc g x y o = some g') :
    ∀ i j : Fin 9, (g'.grid i j).dirs = (g.grid i j).dirs := by
  intro i j
  rcases hx : pyIdx x with _ | a
  · rw [setOcc, hx] at h
    cases h
  rcases hy : pyIdx y with _ | b
  · rw [setOcc, hx, hy] at h
    cases h
  rw [setOcc, hx, hy] at h
  simp only [Option.bind_eq_bind, Option.some_bind, Option.pure_def,
    Option.some.injEq] at h
  subst h
  by_cases hc : i = a ∧ j = b
  · obtain ⟨rfl, rfl⟩ := hc
    simp [setCell_same]
  · simp [setCell_other _ _ _ _ _ _ hc]

theorem setDir_mono {g g' : Game} {x y : ℤ} {d : Dir}
    (h : setDir g x y d false = some g') :
    ∀ (i j : Fin 9) (d' : Dir),
      (g.grid i j).dirs d' = false → (g'.grid i j).dirs d' = false := by
  intro i j d' hf
  rcases hx : pyIdx x with _ | a
  · rw [setDir, hx] at h
    cases h
  rcases hy : pyIdx y with _ | b
  · rw [setDir, hx, hy] at h
    cases h
  rw [setDir, hx, hy] at h
  simp only [Option.bind_eq_bind, Option.some_bind, Option.pure_def,
    Option.some.injEq] at h
  subst h
  by_cases hc : i = a ∧ j = b
  · obtain ⟨rfl, rfl⟩ := hc
    simp only [setCell_same]
    by_cases hd : d' = d
    · simp [hd]
    · simpa [hd] using hf
  · simpa [setCell_other _ _ _ _ _ _ hc] using hf

theorem moveCore_dirs {g : Game} {d : Dir} {b : Bool} {g' : Game}
    (h : moveCore g d = some (b, g')) :
    ∀ i j : Fin 9, (g'.grid i j).dirs = (g.grid i j).dirs := by
  simp only [moveCore] at h
  split at h
  · rw [Option.pure_def, Option.some.injEq, Prod.mk.injEq] at h
    rw [← h.2]
    intro i j
    rfl
  · rcases hsrc : gridGet g (g.pos g.turn).1 (g.pos g.turn).2 with _ | src
    · rw [hsrc] at h
      cases h
    rw [hsrc, Option.bind_eq_bind, Option.some_bind] at h
    split at h
    · rw [Option.pure_def, Option.some.injEq, Prod.mk.injEq] at h
      rw [← h.2]
      intro i j
      rfl
    · rcases htgt : gridGet g ((g.pos g.turn).1 + (delta d).1)
          ((g.pos g.turn).2 + (delta d).2) with _ | tgt
      · rw [htgt] at h
        cases h
      rw [htgt, Option.some_bind] at h
      split at h
      · rw [Option.pure_def, Option.some.injEq, Prod.mk.injEq] at h
        rw [← h.2]
        intro i j
        rfl
      · rcases h1 : setOcc g (g.pos g.turn).1 (g.pos g.turn).2 .empty with _ | g1
        · rw [h1] at h
          cases h
        rw [h1] at h
        simp only [Option.bind_eq_bind, Option.some_bind] at h
        rcases h2 : setOcc g1 ((g.pos g.turn).1 + (delta d).1)
            ((g.pos g.turn).2 + (delta d).2) (occOf g.turn) with _ | g2
        · rw [h2] at h
          cases h
        rw [h2] at h
        simp only [Option.bind_eq_bind, Option.some_bind, Option.pure_def,
          Option.some.injEq, Prod.mk.injEq] at h
        rw [← h.2]
        intro i j
        simp [setOcc_dirs h2, setOcc_dirs h1]

theorem applyOp_mono {g : Game} {op : Op} {g' : Game}
    (h : applyOp g op = some g') :
    ∀ (i j : Fin 9) (d' : Dir),
      (g.grid i j).dirs d' = false → (g'.grid i j).dirs d' = false := by
  intro i j d' hf
  cases op with
  | move s =>
    simp only [applyOp] at h
    rcases hm : movePlayer g s with _ | r
    · rw [hm] at h
      cases h
    rcases r with ⟨b, g2⟩
    rw [hm] at h
    simp only [Option.map_some', Option.some.injEq] at h
    subst h
    rcases hp : parseDir s with _ | d
    · rw [movePlayer, hp] at hm
      cases hm
    rw [movePlayer, hp] at hm
    rw [moveCore_dirs hm]
    exact hf
  | wall x y o =>
    simp only [applyOp] at h
    rcases hm : placeWall g x y o with _ | r
    · rw [hm] at h
      cases h
    rcases r with ⟨b, g2⟩
    rw [hm] at h
    simp only [Option.map_some', Option.some.injEq] at h
    subst h
    by_cases hH : o = "H"
    · subst hH
      rw [placeWall, if_pos rfl] at hm
      split at hm
      · rw [Option.some.injEq, Prod.mk.injEq] at hm
        rw [← hm.2]
        exact hf
      · rcases e1 : setDir g x y .D false with _ | q1
        · rw [e1] at hm
          cases hm
        rw [e1, Option.bind_eq_bind, Option.some_bind] at hm
        rcases e2 : setDir q1 x (y + 1) .D false with _ | q2
        · rw [e2] at hm
          cases hm
        rw [e2, Option.some_bind] at hm
        rcases e3 : setDir q2 (x + 1) y .U false with _ | q3
        · rw [e3] at hm
          cases hm
        rw [e3, Option.some_bind] at hm
        rcases e4 : setDir q3 (x + 1) (y + 1) .U false with _ | q4
        · rw [e4] at hm
          cases hm
        rw [e4, Option.some_bind, Option.pure_def, Option.some.injEq,
          Prod.mk.injEq] at hm
        rw [← hm.2]
        exact setDir_mono e4 i j d' (setDir_mono e3 i j d'
          (setDir_mono e2 i j d' (setDir_mono e1 i j d' hf)))
    · by_cases hV : o = "V"
      · subst hV
        rw [placeWall, if_neg (by decide), if_pos rfl] at hm
        split at hm
        · rw [Option.some.injEq, Prod.mk.injEq] at hm
          rw [← hm.2]
          exact hf
        · rcases e1 : setDir g x y .R false with _ | q1
          · rw [e1] at hm
            cases hm
          rw [e1, Option.bind_eq_bind, Option.some_bind] at hm
          rcases e2 : setDir q1 (x + 1) y .R false with _ | q2
          · rw [e2] at hm
            cases hm
          rw [e2, Option.some_bind] at hm
          rcases e3 : setDir q2 x (y + 1) .L false with _ | q3
          · rw [e3] at hm
            cases hm
          rw [e3, Option.some_bind] at hm
          rcases e4 : setDir q3 (x + 1) (y + 1) .L false with _ | q4
          · rw [e4] at hm
            cases hm
          rw [e4, Option.some_bind, Option.pure_def, Option.some.injEq,
            Prod.mk.injEq] at hm
          rw [← hm.2]
          exact setDir_mono e4 i j d' (setDir_mono e3 i j d'
            (setDir_mono e2 i j d' (setDir_mono e1 i j d' hf)))
      · rw [placeWall, if_neg hH, if_neg hV, Option.some.injEq,
          Prod.mk.injEq] at hm
        rw [← hm.2]
        exact hf
  | switchT =>
    simp only [applyOp, Option.some.injEq] at h
    rw [← h]
    exact hf
  | checkW =>
    simp only [applyOp, Option.some.injEq] at h
    rw [← h]
    exact hf

theorem runOps_mono {ops : List Op} :
    ∀ {g g' : Game}, runOps g ops = some g' →
      ∀ (i j : Fin 9) (d' : Dir),
        (g.grid i j).dirs d' = false → (g'.grid i j).dirs d' = false := by
  induction ops with
  | nil =>
    intro g g' h i j d' hf
    rw [runOps, Option.some.injEq] at h
    rwa [← h]
  | cons op rest ih =>
    intro g g' h i j d' hf
    rw [runOps] at h
    rcases ha : applyOp g op with _ | g1
    · rw [ha] at h
      cases h
    rw [ha, Option.some_bind] at h
    exact ih h i j d' (applyOp_mono ha i j d' hf)

/-- C4: permissions are monotonically blocking — over any operation
sequence no disabled direction flag is ever re-enabled, and from the
initial state every border cell's outward permission stays disabled
forever. -/
theorem c4_monotone_blocking :
    (∀ (g : Game) (ops : List Op) (g' : Game), runOps g ops = some g' →
      ∀ (i j : Fin 9) (d : Dir),
        (g.grid i j).dirs d = false → (g'.grid i j).dirs d = false) ∧
    (∀ (ops : List Op) (g' : Game), runOps initGame ops = some g' →
      ∀ i j : Fin 9,
        (g'.grid i 0).dirs .L = false ∧ (g'.grid i 8).dirs .R = false ∧
        (g'.grid 0 j).dirs .U = false ∧ (g'.grid 8 j).dirs .D = false) := by
  have hborder : ∀ i j : Fin 9,
      (initGame.grid i 0).dirs .L = false ∧ (initGame.grid i 8).dirs .R = false ∧
      (initGame.grid 0 j).dirs .U = false ∧ (initGame.grid 8 j).dirs .D = false := by
    decide
  refine ⟨fun g ops g' h i j d hf => runOps_mono h i j d hf, ?_⟩
  intro ops g' h i j
  exact ⟨runOps_mono h i 0 .L (hborder i j).1,
    runOps_mono h i 8 .R (hborder i j).2.1,
    runOps_mono h 0 j .U (hborder i j).2.2.1,
    runOps_mono h 8 j .D (hborder i j).2.2.2⟩

/-- Witness for C4: a concrete run (the pure `check_win` query) from
the initial state. -/
theorem c4_monotone_blocking_witness :
    runOps initGame [Op.checkW] = some initGame ∧
      ((initGame.grid 0 0).dirs Dir.L = false →
        (initGame.grid 0 0).dirs Dir.L = false) ∧
      (∀ i j : Fin 9,
        (initGame.grid i 0).dirs .L = false ∧
        (initGame.grid i 8).dirs .R = false ∧
        (initGame.grid 0 j).dirs .U = false ∧
        (initGame.grid 8 j).dirs .D = false) :=
  ⟨rfl, fun h => c4_monotone_blocking.1 initGame [Op.checkW] initGame rfl 0 0 Dir.L h,
    c4_monotone_blocking.2 [Op.checkW] initGame rfl⟩

/-! ## C5: occupancy and position-map consistency -/

theorem finPair_coe_inj {x y a b : Fin 9}
    (h : (((x : ℤ), (y : ℤ)) : Pos) = ((a : ℤ), (b : ℤ))) : x = a ∧ y = b := by
  have h1 : (x : ℤ) = (a : ℤ) := congrArg Prod.fst h
  have h2 : (y : ℤ) = (b : ℤ) := congrArg Prod.snd h
  constructor <;> [skip; skip] <;> apply Fin.ext <;> omega

theorem setDir_occ_pos {g g' : Game} {x y : ℤ} {d : Dir} {b : Bool}
    (h : setDir g x y d b = some g') :
    (∀ i j : Fin 9, (g'.grid i j).occupant = (g.grid i j).occupant) ∧
      g'.pos = g.pos ∧ g'.turn = g.turn := by
  rcases hx : pyIdx x with _ | a
  · rw [setDir, hx] at h
    cases h
  rcases hy : pyIdx y with _ | c
  · rw [setDir, hx, hy] at h
    cases h
  rw [setDir, hx, hy] at h
  simp only [Option.bind_eq_bind, Option.some_bind, Option.pure_def,
    Option.some.injEq] at h
  subst h
  refine ⟨?_, rfl, rfl⟩
  intro i j
  by_cases hc : i = a ∧ j = c
  · obtain ⟨rfl, rfl⟩ := hc
    simp [setCell_same]
  · simp [setCell_other _ _ _ _ _ _ hc]

theorem placeWall_occ_pos {g : Game} {x y : ℤ} {o : String} {b : Bool}
    {g2 : Game} (hm : placeWall g x y o = some (b, g2)) :
    (∀ i j : Fin 9, (g2.grid i j).occupant = (g.grid i j).occupant) ∧
      g2.pos = g.pos ∧ g2.turn = g.turn := by
  by_cases hH : o = "H"
  · subst hH
    rw [placeWall, if_pos rfl] at hm
    split at hm
    · rw [Option.some.injEq, Prod.mk.injEq] at hm
      rw [← hm.2]
      exact ⟨fun i j => rfl, rfl, rfl⟩
    · rcases e1 : setDir g x y .D false with _ | q1
      · rw [e1] at hm
        cases hm
      rw [e1] at hm
      simp only [Option.bind_eq_bind, Option.some_bind] at hm
      rcases e2 : setDir q1 x (y + 1) .D false with _ | q2
      · rw [e2] at hm
        cases hm
      rw [e2, Option.some_bind] at hm
      rcases e3 : setDir q2 (x + 1) y .U false with _ | q3
      · rw [e3] at hm
        cases hm
      rw [e3, Option.some_bind] at hm
      rcases e4 : setDir q3 (x + 1) (y + 1) .U false with _ | q4
      · rw [e4] at hm
        cases hm
      rw [e4, Option.some_bind, Option.pure_def, Option.some.injEq,
        Prod.mk.injEq] at hm
      rw [← hm.2]
      obtain ⟨o1, p1, t1⟩ := setDir_occ_pos e1
      obtain ⟨o2, p2, t2⟩ := setDir_occ_pos e2
      obtain ⟨o3, p3, t3⟩ := setDir_occ_pos e3
      obtain ⟨o4, p4, t4⟩ := setDir_occ_pos e4
      refine ⟨?_, ?_, ?_⟩
      · intro i j
        exact (o4 i j).trans ((o3 i j).trans ((o2 i j).trans (o1 i j)))
      · exact p4.trans (p3.trans (p2.trans p1))
      · exact t4.trans (t3.trans (t2.trans t1))
  · by_cases hV : o = "V"
    · subst hV
      rw [placeWall, if_neg (by decide), if_pos rfl] at hm
      split at hm
      · rw [Option.some.injEq, Prod.mk.injEq] at hm
        rw [← hm.2]
        exact ⟨fun i j => rfl, rfl, rfl⟩
      · rcases e1 : setDir g x y .R false with _ | q1
        · rw [e1] at hm
          cases hm
        rw [e1] at hm
        simp only [Option.bind_eq_bind, Option.some_bind] at hm
        rcases e2 : setDir q1 (x + 1) y .R false with _ | q2
        · rw [e2] at hm
          cases hm
        rw [e2, Option.some_bind] at hm
        rcases e3 : setDir q2 x (y + 1) .L false with _ | q3
        · rw [e3] at hm
          cases hm
        rw [e3, Option.some_bind] at hm
        rcases e4 : setDir q3 (x + 1) (y + 1) .L false with _ | q4
        · rw [e4] at hm
          cases hm
        rw [e4, Option.some_bind, Option.pure_def, Option.some.injEq,
          Prod.mk.injEq] at hm
        rw [← hm.2]
        obtain ⟨o1, p1, t1⟩ := setDir_occ_pos e1
        obtain ⟨o2, p2, t2⟩ := setDir_occ_pos e2
        obtain ⟨o3, p3, t3⟩ := setDir_occ_pos e3
        obtain ⟨o4, p4, t4⟩ := setDir_occ_pos e4
        refine ⟨?_, ?_, ?_⟩
        · intro i j
          exact (o4 i j).trans ((o3 i j).trans ((o2 i j).trans (o1 i j)))
        · exact p4.trans (p3.trans (p2.trans p1))
        · exact t4.trans (t3.trans (t2.trans t1))
    · rw [placeWall, if_neg hH, if_neg hV, Option.some.injEq,
        Prod.mk.injEq] at hm
      rw [← hm.2]
      exact ⟨fun i j => rfl, rfl, rfl⟩

theorem stateInv_other_player (g : Game) (hinv : StateInv g) (p : Player) :
    ∃ i j : Fin 9, g.pos p = ((i : ℤ), (j : ℤ)) := by
  obtain ⟨h1, h2, _, _⟩ := hinv
  cases p
  · exact h1
  · exact h2

theorem moveCore_stateInv {g : Game} {d : Dir} {b : Bool} {g' : Game}
    (hinv : StateInv g) (h : moveCore g d = some (b, g')) : StateInv g' := by
  obtain ⟨i, j, hpos⟩ := stateInv_other_player g hinv g.turn
  obtain ⟨hP1, hP2, hne, hform⟩ := hinv
  by_cases hin : inGrid (moveTgt i j d)
  · obtain ⟨a, ha⟩ := exists_fin_coe hin.1 hin.2.1
    obtain ⟨c, hc⟩ := exists_fin_coe hin.2.2.1 hin.2.2.2
    have hab : ((a : ℤ), (c : ℤ)) = moveTgt i j d := by
      rcases hx : moveTgt i j d with ⟨u, v⟩
      rw [hx] at ha hc
      simp_all
    by_cases hdir : (g.grid i j).dirs d = false
    · rw [moveCore_flag g d i j hpos hin hdir, Option.some.injEq,
        Prod.mk.injEq] at h
      rw [← h.2]
      exact ⟨hP1, hP2, hne, hform⟩
    · rw [Bool.not_eq_false] at hdir
      by_cases hocc : (g.grid a c).occupant = .empty
      · rw [moveCore_success g d i j a c hpos hab hdir hocc,
          Option.some.injEq, Prod.mk.injEq] at h
        rw [← h.2]
        have hsrc_ne : ¬ (a = i ∧ c = j) := src_ne_tgt hab
        have hcoords_ne : (((a : ℤ), (c : ℤ)) : Pos) ≠ ((i : ℤ), (j : ℤ)) :=
          fun hq => hsrc_ne (finPair_coe_inj hq)
        have htgt_ne : ∀ p : Player, (((a : ℤ), (c : ℤ)) : Pos) ≠ g.pos p := by
          intro p hp
          have h5 := hform a c
          rw [hocc, hp] at h5
          cases p
          · rw [if_pos rfl] at h5
            cases h5
          · rw [if_neg fun hq => hne hq.symm, if_pos rfl] at h5
            cases h5
        have hposnew : ∀ p : Player, (moveResult g i j a c).pos p =
            (if p = g.turn then ((a : ℤ), (c : ℤ)) else g.pos p) := fun p => rfl
        have hgrid : ∀ x y : Fin 9, ((moveResult g i j a c).grid x y).occupant =
            (if x = a ∧ y = c then occOf g.turn
             else if x = i ∧ y = j then .empty
             else (g.grid x y).occupant) := by
          intro x y
          simp only [moveResult, withOcc]
          by_cases h1 : x = a ∧ y = c
          · obtain ⟨rfl, rfl⟩ := h1
            rw [setCell_same, if_pos ⟨rfl, rfl⟩]
          · rw [setCell_other _ _ _ _ _ _ h1, if_neg h1]
            by_cases h2 : x = i ∧ y = j
            · obtain ⟨rfl, rfl⟩ := h2
              rw [setCell_same, if_pos ⟨rfl, rfl⟩]
            · rw [setCell_other _ _ _ _ _ _ h2, if_neg h2]
        rcases ht : g.turn with _ | _
        · -- player1 moved
          have e1 : (moveResult g i j a c).pos Player.P1 = ((a : ℤ), (c : ℤ)) := by
            rw [hposnew, ht, if_pos rfl]
          have e2 : (moveResult g i j a c).pos Player.P2 = g.pos Player.P2 := by
            rw [hposnew, ht, if_neg (by intro hq; cases hq)]
          have hP1eq : g.pos Player.P1 = ((i : ℤ), (j : ℤ)) := by
            rw [← ht]
            exact hpos
          refine ⟨⟨a, c, e1⟩, ?_, ?_, ?_⟩
          · obtain ⟨u, v, huv⟩ := hP2
            exact ⟨u, v, e2.trans huv⟩
          · rw [e1, e2]
            exact htgt_ne Player.P2
          · intro x y
            rw [hgrid x y, e1, e2, ht]
            by_cases h1 : x = a ∧ y = c
            · obtain ⟨rfl, rfl⟩ := h1
              rw [if_pos ⟨rfl, rfl⟩, if_pos rfl]
              rfl
            · rw [if_neg h1, if_neg (fun hq => h1 (finPair_coe_inj hq))]
              by_cases h2 : x = i ∧ y = j
              · obtain ⟨rfl, rfl⟩ := h2
                rw [if_pos ⟨rfl, rfl⟩,
                  if_neg (fun hq => hne (hP1eq.trans hq))]
              · rw [if_neg h2]
                have h5 := hform x y
                rw [hP1eq, if_neg (fun hq => h2 (finPair_coe_inj hq))] at h5
                exact h5
        · -- player2 moved
          have e1 : (moveResult g i j a c).pos Player.P1 = g.pos Player.P1 := by
            rw [hposnew, ht, if_neg (by intro hq; cases hq)]
          have e2 : (moveResult g i j a c).pos Player.P2 = ((a : ℤ), (c : ℤ)) := by
            rw [hposnew, ht, if_pos rfl]
          have hP2eq : g.pos Player.P2 = ((i : ℤ), (j : ℤ)) := by
            rw [← ht]
            exact hpos
          refine ⟨?_, ⟨a, c, e2⟩, ?_, ?_⟩
          · obtain ⟨u, v, huv⟩ := hP1
            exact ⟨u, v, e1.trans huv⟩
          · rw [e1, e2]
            exact fun hq => htgt_ne Player.P1 hq.symm
          · intro x y
            rw [hgrid x y, e1, e2, ht]
            by_cases h1 : x = a ∧ y = c
            · obtain ⟨rfl, rfl⟩ := h1
              rw [if_pos ⟨rfl, rfl⟩, if_neg (htgt_ne Player.P1), if_pos rfl]
              rfl
            · rw [if_neg h1]
              by_cases h2 : x = i ∧ y = j
              · obtain ⟨rfl, rfl⟩ := h2
                rw [if_pos ⟨rfl, rfl⟩,
                  if_neg (fun hq => hne (hq.symm.trans hP2eq.symm)),
                  if_neg (fun hq => hcoords_ne (hq.symm))]
              · rw [if_neg h2]
                have h5 := hform x y
                rw [hP2eq, if_neg (fun hq => h2 (finPair_coe_inj hq))] at h5
                rw [h5, if_neg (fun hq => h1 (finPair_coe_inj hq))]
      · rw [moveCore_occupied g d i j a c hpos hab hdir hocc,
          Option.some.injEq, Prod.mk.injEq] at h
        rw [← h.2]
        exact ⟨hP1, hP2, hne, hform⟩
  · rw [moveCore_oob g d i j hpos hin, Option.some.injEq, Prod.mk.injEq] at h
    rw [← h.2]
    exact ⟨hP1, hP2, hne, hform⟩


theorem applyOp_stateInv {g : Game} {op : Op} {g' : Game}
    (hinv : StateInv g) (h : applyOp g op = some g') : StateInv g' := by
  cases op with
  | move s =>
    simp only [applyOp] at h
    rcases hm : movePlayer g s with _ | r
    · rw [hm] at h
      cases h
    rcases r with ⟨b, g2⟩
    rw [hm] at h
    simp only [Option.map_some', Option.some.injEq] at h
    subst h
    rcases hp : parseDir s with _ | d
    · rw [movePlayer, hp] at hm
      cases hm
    rw [movePlayer, hp] at hm
    exact moveCore_stateInv hinv hm
  | wall x y o =>
    simp only [applyOp] at h
    rcases hm : placeWall g x y o with _ | r
    · rw [hm] at h
      cases h
    rcases r with ⟨b, g2⟩
    rw [hm] at h
    simp only [Option.map_some', Option.some.injEq] at h
    subst h
    obtain ⟨hocc, hpos, _⟩ := placeWall_occ_pos hm
    obtain ⟨hP1, hP2, hne, hform⟩ := hinv
    rw [StateInv, hpos]
    refine ⟨hP1, hP2, hne, ?_⟩
    intro a b
    rw [hocc a b]
    exact hform a b
  | switchT =>
    simp only [applyOp, Option.some.injEq] at h
    rw [← h]
    exact hinv
  | checkW =>
    simp only [applyOp, Option.some.injEq] at h
    rw [← h]
    exact hinv

theorem reachable_stateInv {g : Game} (h : Reachable g) : StateInv g := by
  induction h with
  | init =>
    unfold StateInv
    decide
  | step g1 op g2 _ hstep ih => exact applyOp_stateInv ih hstep

/-- C5: every reachable game state has exactly one cell occupied by
each player, distinct player positions, and mutually consistent
occupancy and position map; both successful and failed operations
preserve this. -/
theorem c5_state_consistency (g : Game) (h : Reachable g) :
    ConsistentState g := by
  have hinv := reachable_stateInv h
  obtain ⟨hP1, hP2, hne, hform⟩ := hinv
  have huniq : ∀ p : Player, ∃ i j : Fin 9, g.pos p = ((i : ℤ), (j : ℤ)) ∧
      (g.grid i j).occupant = occOf p ∧
      (∀ a b : Fin 9, (g.grid a b).occupant = occOf p →
        ((a : ℤ), (b : ℤ)) = g.pos p) := by
    intro p
    rcases p with _ | _
    · obtain ⟨i, j, hij⟩ := hP1
      refine ⟨i, j, hij, ?_, ?_⟩
      · rw [hform i j, hij, if_pos rfl]
        rfl
      · intro a b hab
        rw [hform a b] at hab
        by_cases h1 : (((a : ℤ), (b : ℤ)) : Pos) = g.pos Player.P1
        · exact h1
        · rw [if_neg h1] at hab
          by_cases h2 : (((a : ℤ), (b : ℤ)) : Pos) = g.pos Player.P2
          · rw [if_pos h2] at hab
            cases hab
          · rw [if_neg h2] at hab
            cases hab
    · obtain ⟨i, j, hij⟩ := hP2
      refine ⟨i, j, hij, ?_, ?_⟩
      · rw [hform i j, hij]
        rw [if_neg (by rw [← hij]; exact fun hq => hne hq.symm), if_pos rfl]
        rfl
      · intro a b hab
        rw [hform a b] at hab
        by_cases h1 : (((a : ℤ), (b : ℤ)) : Pos) = g.pos Player.P1
        · rw [if_pos h1] at hab
          cases hab
        · rw [if_neg h1] at hab
          by_cases h2 : (((a : ℤ), (b : ℤ)) : Pos) = g.pos Player.P2
          · exact h2
          · rw [if_neg h2] at hab
            cases hab
  refine ⟨?_, ?_, hne, huniq⟩
  · obtain ⟨i, j, hij, hocc, hu⟩ := huniq Player.P1
    refine ⟨(i, j), hocc, ?_⟩
    rintro ⟨a, b⟩ hab
    have := hu a b hab
    rw [hij] at this
    obtain ⟨h1, h2⟩ := finPair_coe_inj this
    rw [h1, h2]
  · obtain ⟨i, j, hij, hocc, hu⟩ := huniq Player.P2
    refine ⟨(i, j), hocc, ?_⟩
    rintro ⟨a, b⟩ hab
    have := hu a b hab
    rw [hij] at this
    obtain ⟨h1, h2⟩ := finPair_coe_inj this
    rw [h1, h2]

/-- Witness for C5: the initial state is reachable and consistent. -/
theorem c5_state_consistency_witness :
    Reachable initGame ∧ ConsistentState initGame :=
  ⟨Reachable.init, c5_state_consistency initGame Reachable.init⟩

/-! ## C7: the repeated-`U` end-to-end scenario -/

theorem moveResult_dirs (g : Game) (i j a b : Fin 9) :
    ∀ (x y : Fin 9) (d' : Dir),
      ((moveResult g i j a b).grid x y).dirs d' = (g.grid x y).dirs d' := by
  intro x y d'
  simp only [moveResult, withOcc]
  by_cases h1 : x = a ∧ y = b
  · obtain ⟨rfl, rfl⟩ := h1
    rw [setCell_same]
    by_cases h2 : x = i ∧ y = j
    · obtain ⟨rfl, rfl⟩ := h2
      simp [setCell_same]
    · simp [setCell_other _ _ _ _ _ _ h2]
  · rw [setCell_other _ _ _ _ _ _ h1]
    by_cases h2 : x = i ∧ y = j
    · obtain ⟨rfl, rfl⟩ := h2
      simp [setCell_same]
    · simp [setCell_other _ _ _ _ _ _ h2]

theorem initGame_dirs_U (i j : Fin 9) (h : i ≠ 0) :
    (initGame.grid i j).dirs Dir.U = true := by
  revert i j
  decide

theorem ustate_init : UState 8 initGame := by
  refine ⟨rfl, by decide, by decide, ?_, fun x y d' => rfl⟩
  unfold StateInv
  decide

theorem ustate_step {r : ℕ} {g : Game} (hU : UState r g) (h2 : 2 ≤ r)
    (h8 : r ≤ 8) :
    ∃ g' : Game, movePlayer g "U" = some (true, g') ∧ UState (r - 1) g' := by
  obtain ⟨ht, hp1, hp2, hinv, hdirs⟩ := hU
  obtain ⟨i, hi⟩ := exists_fin_coe (z := (r : ℤ)) (by omega) (by omega)
  obtain ⟨a, ha⟩ := exists_fin_coe (z := (r : ℤ) - 1) (by omega) (by omega)
  have hfour : (((4 : Fin 9) : ℤ)) = (4 : ℤ) := by decide
  have hpos : g.pos g.turn = ((i : ℤ), ((4 : Fin 9) : ℤ)) := by
    rw [ht, hp1, hi, hfour]
  have hab : ((a : ℤ), ((4 : Fin 9) : ℤ)) = moveTgt i 4 Dir.U := by
    simp only [moveTgt, delta]
    rw [ha, hi, hfour, Prod.mk.injEq]
    exact ⟨by omega, by omega⟩
  have hine : i ≠ 0 := by
    intro hq
    rw [hq] at hi
    simp at hi
    omega
  have hflag : (g.grid i 4).dirs Dir.U = true := by
    rw [hdirs]
    exact initGame_dirs_U i 4 hine
  have hocc : (g.grid a 4).occupant = .empty := by
    obtain ⟨_, _, _, hform⟩ := hinv
    rw [hform a 4, hp1, hp2, hfour]
    rw [if_neg (by rw [ha]; intro hq; rw [Prod.mk.injEq] at hq; omega),
      if_neg (by rw [ha]; intro hq; rw [Prod.mk.injEq] at hq; omega)]
  have hsucc := moveCore_success g Dir.U i 4 a 4 hpos hab hflag hocc
  refine ⟨moveResult g i 4 a 4, ?_, ?_, ?_, ?_, ?_, ?_⟩
  · rw [show ("U" : String) = dirStr Dir.U from rfl, movePlayer_core]
    exact hsucc
  · rw [show (moveResult g i 4 a 4).turn = g.turn from rfl]
    exact ht
  · rw [show (moveResult g i 4 a 4).pos Player.P1 =
        (if Player.P1 = g.turn then ((a : ℤ), ((4 : Fin 9) : ℤ)) else g.pos Player.P1) from rfl]
    rw [ht, if_pos rfl, ha, hfour]
    have : (((r - 1 : ℕ) : ℤ)) = (r : ℤ) - 1 := by omega
    rw [this]
  · rw [show (moveResult g i 4 a 4).pos Player.P2 =
        (if Player.P2 = g.turn then ((a : ℤ), ((4 : Fin 9) : ℤ)) else g.pos Player.P2) from rfl]
    rw [ht, if_neg (by intro hq; cases hq)]
    exact hp2
  · exact moveCore_stateInv ⟨hinv.1, hinv.2.1, hinv.2.2.1, hinv.2.2.2⟩ hsucc
  · intro x y d'
    rw [moveResult_dirs]
    exact hdirs x y d'

theorem ustate_last {g : Game} (hU : UState 1 g) :
    movePlayer g "U" = some (false, g) ∧ checkWin g = none := by
  obtain ⟨ht, hp1, hp2, hinv, hdirs⟩ := hU
  have hfour : (((4 : Fin 9) : ℤ)) = (4 : ℤ) := by decide
  have hone : (((1 : Fin 9) : ℤ)) = (1 : ℤ) := by decide
  have hzero : (((0 : Fin 9) : ℤ)) = (0 : ℤ) := by decide
  have hpos : g.pos g.turn = (((1 : Fin 9) : ℤ), ((4 : Fin 9) : ℤ)) := by
    rw [ht, hp1]
    decide
  have hab : (((0 : Fin 9) : ℤ), ((4 : Fin 9) : ℤ)) = moveTgt 1 4 Dir.U := by
    decide
  have hflag : (g.grid 1 4).dirs Dir.U = true := by
    rw [hdirs]
    exact initGame_dirs_U 1 4 (by decide)
  have hocc : (g.grid 0 4).occupant ≠ .empty := by
    obtain ⟨_, _, hne, hform⟩ := hinv
    rw [hform 0 4, hzero, hfour, hp1, hp2]
    rw [if_neg (by intro hq; rw [Prod.mk.injEq] at hq; omega), if_pos rfl]
    intro hq
    cases hq
  constructor
  · rw [show ("U" : String) = dirStr Dir.U from rfl, movePlayer_core]
    exact moveCore_occupied g Dir.U 1 4 0 4 hpos hab hflag hocc
  · rw [checkWin, hp1, hp2]
    rw [if_neg (by simp), if_neg (by simp)]

theorem traceU_chain : ∀ k : ℕ, k ≤ 7 →
    ∃ gk : Game, traceU initGame k = some (List.replicate k true, gk) ∧
      UState (8 - k) gk := by
  intro k
  induction k with
  | zero => exact fun _ => ⟨initGame, rfl, ustate_init⟩
  | succ n ih =>
    intro hn
    obtain ⟨gn, htr, hU⟩ := ih (by omega)
    obtain ⟨gn1, hmv, hU1⟩ := ustate_step hU (by omega) (by omega)
    refine ⟨gn1, ?_, ?_⟩
    · simp only [traceU, htr, Option.bind_eq_bind, Option.some_bind, hmv,
        List.replicate_succ']
      rfl
    · have : 8 - (n + 1) = 8 - n - 1 := by omega
      rw [this]
      exact hU1

theorem traceU_succ (g : Game) (n : ℕ) :
    traceU g (n + 1) = (do
      let p ← traceU g n
      let q ← movePlayer p.2 "U"
      pure (p.1 ++ [q.1], q.2) : Option (List Bool × Game)) := by
  simp only [traceU]

/-- C7 (amended): from the initial state the first seven `U` moves by
player1 succeed, leaving player1 at `(1, 4)`; the eighth `U` move
returns `False` because `(0, 4)` is occupied by player2, the position
stays `(1, 4)`, and `check_win` reports no winner. -/
theorem c7_repeated_up_amended :
    ∃ g7 : Game,
      traceU initGame 7 = some (List.replicate 7 true, g7) ∧
      g7.pos Player.P1 = ((1 : ℤ), (4 : ℤ)) ∧
      movePlayer g7 "U" = some (false, g7) ∧
      checkWin g7 = none ∧
      traceU initGame 8 = some (List.replicate 7 true ++ [false], g7) := by
  obtain ⟨g7, htr, hU⟩ := traceU_chain 7 (by omega)
  obtain ⟨hmv, hwin⟩ := ustate_last hU
  refine ⟨g7, htr, hU.2.1, hmv, hwin, ?_⟩
  rw [show (8 : ℕ) = 7 + 1 from rfl, traceU_succ, htr]
  simp only [Option.bind_eq_bind, Option.some_bind, hmv]
  rfl

/-- C7 counterexample: the claim as stated is false — the eighth `U`
move does not succeed (the trace of returned booleans ends in `False`,
which differs from eight `True`s) and `check_win` still reports no
winner afterwards. -/
theorem c7_repeated_up_counterexample :
    (traceU initGame 8).map Prod.fst = some (List.replicate 7 true ++ [false]) ∧
      (traceU initGame 8).map (fun p => checkWin p.2) = some none ∧
      List.replicate 7 true ++ [false] ≠ List.replicate 8 true := by
  obtain ⟨g7, htr, hU⟩ := traceU_chain 7 (by omega)
  obtain ⟨hmv, hwin⟩ := ustate_last hU
  have h8 : traceU initGame 8 = some (List.replicate 7 true ++ [false], g7) := by
    rw [show (8 : ℕ) = 7 + 1 from rfl, traceU_succ, htr]
    simp only [Option.bind_eq_bind, Option.some_bind, hmv]
    rfl
  refine ⟨?_, ?_, by decide⟩
  · rw [h8, Option.map_some']
  · rw [h8, Option.map_some', hwin]

/-! ## C9: `place_wall` with an orientation outside H and V -/

/-- C9: for an orientation that is neither `'H'` nor `'V'`,
`place_wall` performs no bounds check and no permission update: for all
integer anchors it simply appends `(x, y, orientation)` to the wall
list and returns `True`, the rest of the state untouched. -/
theorem c9_wall_other_orientation (g : Game) (x y : ℤ) (o : String)
    (hH : o ≠ "H") (hV : o ≠ "V") :
    placeWall g x y o = some (true, { g with walls := g.walls ++ [(x, y, o)] }) := by
  unfold placeWall
  rw [if_neg hH, if_neg hV]

/-- Witness for C9 at a concrete input. -/
theorem c9_wall_other_orientation_witness :
    ("X" : String) ≠ "H" ∧ ("X" : String) ≠ "V" ∧
      placeWall initGame 50 (-3) "X" =
        some (true, { initGame with walls := initGame.walls ++ [(50, -3, "X")] }) :=
  ⟨by decide, by decide, c9_wall_other_orientation initGame 50 (-3) "X" (by decide) (by decide)⟩

/-! ## C10: `move_player` with an invalid direction key -/

/-- C10: for any direction string outside `{'U','D','L','R'}` the
`DIRECTIONS[direction]` lookup raises `KeyError` (modelled `none`), so
`move_player` never reaches its boolean-failure contract; for the four
canonical keys the call returns a boolean result whenever the current
player's stored position is on the board. -/
theorem c10_invalid_direction_key :
    (∀ (g : Game) (s : String), s ∉ (["U", "D", "L", "R"] : List String) →
      movePlayer g s = none) ∧
    (∀ (g : Game) (d : Dir), (∃ i j : Fin 9, g.pos g.turn = ((i : ℤ), (j : ℤ))) →
      ∃ b : Bool, ∃ g' : Game, movePlayer g (dirStr d) = some (b, g')) := by
  constructor
  · intro g s hs
    simp only [List.mem_cons, List.mem_singleton, not_or] at hs
    obtain ⟨h1, h2, h3, h4⟩ := hs
    simp [movePlayer, parseDir, h1, h2, h3, h4]
  · intro g d ⟨i, j, hpos⟩
    rw [movePlayer_core]
    by_cases hin : inGrid (moveTgt i j d)
    · obtain ⟨a, ha⟩ := exists_fin_coe hin.1 hin.2.1
      obtain ⟨b, hb⟩ := exists_fin_coe hin.2.2.1 hin.2.2.2
      have hab : ((a : ℤ), (b : ℤ)) = moveTgt i j d := by
        rcases hx : moveTgt i j d with ⟨u, v⟩
        rw [hx] at ha hb
        simp_all
      by_cases hdir : (g.grid i j).dirs d = false
      · exact ⟨false, g, moveCore_flag g d i j hpos hin hdir⟩
      · rw [Bool.not_eq_false] at hdir
        by_cases hocc : (g.grid a b).occupant = .empty
        · exact ⟨true, _, moveCore_success g d i j a b hpos hab hdir hocc⟩
        · exact ⟨false, g, moveCore_occupied g d i j a b hpos hab hdir hocc⟩
    · exact ⟨false, g, moveCore_oob g d i j hpos hin⟩

/-- Witness for C10: the lookup failure at `'X'` and the boolean
contract at `'U'` on the initial state. -/
theorem c10_invalid_direction_key_witness :
    ("X" : String) ∉ (["U", "D", "L", "R"] : List String) ∧
      movePlayer initGame "X" = none ∧
      (∃ i j : Fin 9, initGame.pos initGame.turn = ((i : ℤ), (j : ℤ))) ∧
      ∃ b : Bool, ∃ g' : Game, movePlayer initGame (dirStr Dir.U) = some (b, g') := by
  refine ⟨by decide, ?_, ⟨8, 4, by decide⟩, ?_⟩
  · exact c10_invalid_direction_key.1 initGame "X" (by decide)
  · exact c10_invalid_direction_key.2 initGame Dir.U ⟨8, 4, by decide⟩

/-! ## C6: alpha-beta pruning never changes the root minimax value

In the code under verification a branch's "simulated" state differs
from its parent only in the unread `game_state` entry, so every leaf of
the tree evaluates the same heuristic value; the fold of equal values
through the `max`/`min` accumulators is `mmVal`, independent of
`alpha`, `beta`, and of where pruning cuts the loop. -/

theorem flGt_irrefl (a : Fl) : flGt a a = false := by
  cases a <;> simp [flGt]

theorem heuristic_gs (st : AIState) (x : ℕ) :
    heuristic ⟨st.board, st.pos1, st.pos2, st.winner, x⟩ = heuristic st := rfl

theorem mmNode_value (o : ℕ → ℕ) :
    ∀ (dp : ℕ) (st : AIState) (alpha beta : Fl) (maxim : Bool) (k : ℕ),
      ((mmNode o dp st alpha beta maxim k).1).1 =
        (if st.winner.isSome then heuristic st
         else mmVal dp maxim (heuristic st)) := by
  intro dp
  induction dp with
  | zero =>
    intro st alpha beta maxim k
    rcases hw : st.winner.isSome <;> simp [mmNode, mmVal, hw]
  | succ dp ih =>
    intro st alpha beta maxim k
    rcases hw : st.winner.isSome with _ | _
    · rcases hm : maxim with _ | _
      · simp only [mmNode, hw, Bool.false_eq_true, if_false, if_neg,
          ih, heuristic_gs, apply_ite (f := Prod.fst (α := Fl × Option Dir) (β := ℕ)),
          apply_ite (f := Prod.fst (α := Fl) (β := Option Dir))]
        rcases hgt : flGt Fl.pinf (mmVal dp true (heuristic st)) with _ | _ <;>
          simp [mmVal, hgt, flGt_irrefl]
      · simp only [mmNode, hw, Bool.false_eq_true, if_false, if_neg,
          ih, heuristic_gs, apply_ite (f := Prod.fst (α := Fl × Option Dir) (β := ℕ)),
          apply_ite (f := Prod.fst (α := Fl) (β := Option Dir))]
        rcases hgt : flGt (mmVal dp false (heuristic st)) Fl.ninf with _ | _ <;>
          simp [mmVal, hgt, flGt_irrefl]
    · simp [mmNode, hw]

theorem plainMM_value (o : ℕ → ℕ) :
    ∀ (dp : ℕ) (st : AIState) (maxim : Bool) (k : ℕ),
      ((plainMM o dp st maxim k).1).1 =
        (if st.winner.isSome then heuristic st
         else mmVal dp maxim (heuristic st)) := by
  intro dp
  induction dp with
  | zero =>
    intro st maxim k
    rcases hw : st.winner.isSome <;> simp [plainMM, mmVal, hw]
  | succ dp ih =>
    intro st maxim k
    rcases hw : st.winner.isSome with _ | _
    · rcases hm : maxim with _ | _
      · simp only [plainMM, hw, Bool.false_eq_true, if_false, if_neg, ih,
          heuristic_gs]
        rcases hgt : flGt Fl.pinf (mmVal dp true (heuristic st)) with _ | _ <;>
          simp [mmVal, hgt, flGt_irrefl]
      · simp only [plainMM, hw, Bool.false_eq_true, if_false, if_neg, ih,
          heuristic_gs]
        rcases hgt : flGt (mmVal dp false (heuristic st)) Fl.ninf with _ | _ <;>
          simp [mmVal, hgt, flGt_irrefl]
    · simp [plainMM, hw]

/-- C6: for every state, depth, and alpha-beta window, the value the
pruned search returns at the root equals the value of plain
depth-limited minimax (no pruning) over the same state, candidate-move
order and heuristic — and neither depends on the `send_move` oracle or
its call position. -/
theorem c6_alphabeta_eq_minimax (o o2 : ℕ → ℕ) (dp : ℕ) (st : AIState)
    (alpha beta : Fl) (maxim : Bool) (k k2 : ℕ) :
    ((mmNode o dp st alpha beta maxim k).1).1 =
      ((plainMM o2 dp st maxim k2).1).1 := by
  rw [mmNode_value, plainMM_value]

/-! ## C8: the Monte Carlo rollout evaluator -/

theorem mctsTrials_spec (o : ℕ → ℕ) (st : AIState) :
    ∀ n k, mctsTrials o st n k = (specAgg st n, k + n) := by
  intro n
  induction n with
  | zero =>
    intro k
    simp [mctsTrials, specAgg]
  | succ n ih =>
    intro k
    have hagg : specAgg st (n + 1) = specAgg st n + specTrialScore st := by
      simp [specAgg, List.range_succ]
    rw [mctsTrials, ih (k + 1), hagg]
    have hsc : (if (⟨st.board, st.pos1, st.pos2, st.winner, o k⟩ :
        AIState).winner = some Player.P1 then (1 : ℤ)
        else if (⟨st.board, st.pos1, st.pos2, st.winner, o k⟩ :
        AIState).winner = some Player.P2 then (-1 : ℤ) else 0) =
        specTrialScore st := rfl
    simp only [hsc, Prod.mk.injEq]
    exact ⟨by omega, by omega⟩

theorem pyMax_eq_specSelect (f : Dir → ℤ) : pyMaxUDLR f = specSelect f := by
  unfold pyMaxUDLR specSelect
  simp only [List.foldl]
  by_cases h1 : f Dir.D > f Dir.U <;>
    by_cases h2 : f Dir.L > f Dir.D <;>
    by_cases h3 : f Dir.L > f Dir.U <;>
    by_cases h4 : f Dir.R > f Dir.L <;>
    by_cases h5 : f Dir.R > f Dir.D <;>
    by_cases h6 : f Dir.R > f Dir.U <;>
    simp only [h1, h2, h3, h4, h5, h6, if_true, if_false] <;>
    split_ifs <;> first | rfl | omega

/-- C8: `mcts` runs exactly 100 trials per candidate move (issuing one
`send_move` call per trial: the call counter advances by 4·100),
aggregates the per-trial scores (+1 when the simulated state's winner
is player1, −1 when player2, 0 otherwise), and returns the move with
the highest aggregate score, ties resolved in favour of the first move
in the iteration order U, D, L, R. -/
theorem c8_mcts_contract (o : ℕ → ℕ) (st : AIState) (k : ℕ) :
    mcts o st 100 k =
      (specSelect (fun _ => specAgg st 100), k + 4 * 100) := by
  unfold mcts
  simp only [mctsTrials_spec]
  have hf : (fun m => match m with
      | Dir.U => specAgg st 100
      | Dir.D => specAgg st 100
      | Dir.L => specAgg st 100
      | Dir.R => specAgg st 100) = (fun _ : Dir => specAgg st 100) := by
    funext m
    cases m <;> rfl
  rw [hf, pyMax_eq_specSelect, Prod.mk.injEq]
  exact ⟨rfl, by omega⟩

/-! ## C3: correctness of the A* search

### Order and frontier lemmas -/

theorem entLT_trans {a b c : Entry} (h1 : entLT a b) (h2 : entLT b c) :
    entLT a c := by
  obtain ⟨pa, ra, ca⟩ := a
  obtain ⟨pb, rb, cb⟩ := b
  obtain ⟨pc, rc, cc⟩ := c
  simp only [entLT] at h1 h2 ⊢
  omega

theorem entLT_le_trans {a b c : Entry} (h1 : ¬ entLT b a) (h2 : entLT b c) :
    entLT a c := by
  obtain ⟨pa, ra, ca⟩ := a
  obtain ⟨pb, rb, cb⟩ := b
  obtain ⟨pc, rc, cc⟩ := c
  simp only [entLT] at h1 h2 ⊢
  omega

theorem not_entLT_fst {a m : Entry} (h : ¬ entLT a m) : m.1 ≤ a.1 := by
  obtain ⟨pa, ra, ca⟩ := a
  obtain ⟨pm, rm, cm⟩ := m
  simp only [entLT] at h
  omega

theorem foldl_min_spec : ∀ (xs : List Entry) (x : Entry),
    (xs.foldl (fun b e => if entLT e b then e else b) x) ∈ x :: xs ∧
      ∀ e ∈ x :: xs, ¬ entLT e
        (xs.foldl (fun b e => if entLT e b then e else b) x) := by
  intro xs
  induction xs with
  | nil =>
    intro x
    refine ⟨List.mem_singleton.mpr rfl, ?_⟩
    intro e he
    rw [List.mem_singleton] at he
    subst he
    obtain ⟨p, r, c⟩ := e
    simp only [List.foldl, entLT]
    omega
  | cons y ys ih =>
    intro x
    simp only [List.foldl]
    by_cases hxy : entLT y x
    · rw [if_pos hxy]
      obtain ⟨hmem, hmin⟩ := ih y
      constructor
      · exact List.mem_cons_of_mem _ hmem
      · intro e he
        rw [List.mem_cons] at he
        rcases he with rfl | he
        · intro hlt
          exact hmin y (List.mem_cons_self y ys) (entLT_trans hxy hlt)
        · exact hmin e he
    · rw [if_neg hxy]
      obtain ⟨hmem, hmin⟩ := ih x
      constructor
      · rw [List.mem_cons] at hmem
        rcases hmem with h | hmem
        · rw [h]
          exact List.mem_cons_self _ _
        · exact List.mem_cons_of_mem _ (List.mem_cons_of_mem _ hmem)
      · intro e he
        rw [List.mem_cons] at he
        rcases he with rfl | he
        · exact hmin e (List.mem_cons_self e ys)
        · rw [List.mem_cons] at he
          rcases he with rfl | he
          · intro hlt
            exact hmin x (List.mem_cons_self x ys) (entLT_le_trans hxy hlt)
          · exact hmin e (List.mem_cons_of_mem _ he)

theorem popMin_spec {l : List Entry} {m : Entry} {rest : List Entry}
    (h : popMin l = some (m, rest)) :
    m ∈ l ∧ rest = l.erase m ∧ ∀ e ∈ l, ¬ entLT e m := by
  rcases l with _ | ⟨x, xs⟩
  · cases h
  · simp only [popMin, Option.some.injEq, Prod.mk.injEq] at h
    obtain ⟨hm, hrest⟩ := h
    subst hm
    obtain ⟨hmem, hmin⟩ := foldl_min_spec xs x
    exact ⟨hmem, hrest.symm, hmin⟩

theorem popMin_nonempty {l : List Entry} (h : l ≠ []) :
    ∃ m rest, popMin l = some (m, rest) := by
  rcases l with _ | ⟨x, xs⟩
  · exact absurd rfl h
  · exact ⟨_, _, rfl⟩

/-! ### Walk lemmas -/

theorem walk_inGrid {B : ABoard} {a c : Pos} {n : ℕ} (h : Walk B a c n) :
    inGrid a ∧ inGrid c := by
  induction h with
  | nil ha => exact ⟨ha, ha⟩
  | snoc d hw hflag hin ih => exact ⟨ih.1, hin⟩

theorem walk_row {B : ABoard} {a c : Pos} {n : ℕ} (h : Walk B a c n) :
    (a.1 - c.1).natAbs ≤ n := by
  induction h with
  | nil ha => simp
  | snoc d hw hflag hin ih =>
    have hd : ((delta d).1).natAbs ≤ 1 := by cases d <;> decide
    simp only [stepPos]
    omega

theorem walk_trans {B : ABoard} {a b c : Pos} {m n : ℕ}
    (h1 : Walk B a b m) (h2 : Walk B b c n) : Walk B a c (m + n) := by
  induction h2 with
  | nil hb => exact h1
  | snoc d hw hflag hin ih => exact Walk.snoc d ih hflag hin

theorem walk_zero {B : ABoard} {a c : Pos} (h : Walk B a c 0) : c = a := by
  cases h
  rfl

theorem walk_front {B : ABoard} {a c : Pos} {n : ℕ}
    (h : Walk B a c (n + 1)) :
    ∃ d : Dir, B a.1 a.2 d = true ∧ inGrid (stepPos a d) ∧
      Walk B (stepPos a d) c n := by
  induction n generalizing c with
  | zero =>
    rcases h with _ | ⟨d, hw, hflag, hin⟩
    have hc := walk_zero hw
    subst hc
    exact ⟨d, hflag, hin, Walk.nil _ hin⟩
  | succ n ih =>
    rcases h with _ | ⟨d, hw, hflag, hin⟩
    obtain ⟨d0, hf0, hin0, hw0⟩ := ih hw
    exact ⟨d0, hf0, hin0, Walk.snoc d hw0 hflag hin⟩

theorem stepPos_ne (c : Pos) (d : Dir) : stepPos c d ≠ c := by
  obtain ⟨r, q⟩ := c
  intro h
  rw [Prod.ext_iff] at h
  obtain ⟨h1, h2⟩ := h
  cases d <;> simp only [stepPos, delta] at h1 h2 <;> omega

theorem inGrid_mem_grid81 {p : Pos} (h : inGrid p) : p ∈ grid81 := by
  obtain ⟨r, c⟩ := p
  obtain ⟨h1, h2, h3, h4⟩ := h
  simp only [grid81, Finset.mem_product, Finset.mem_Icc]
  omega

/-! ### Maintenance of the invariant through one relaxation -/

theorem relax_update_mid {B : ABoard} {s : Pos} {g : ℤ} {cur : Pos}
    {v0 : ℕ} {ds : List Dir} {fr : List Entry} {cost : CostMap} (d : Dir)
    (hsound : ∀ p v, cost p = some v → Walk B s p v)
    (hcostS : cost s = some 0)
    (hfront : ∀ e ∈ fr, ∃ v, cost e.2 = some v ∧ v ≤ e.1)
    (hbound : ∀ p v, cost p = some v →
      v ≤ (grid81.filter (fun q => costBelow cost v q)).card)
    (hcur : cost cur = some v0)
    (hothers : ∀ p v, cost p = some v → p ≠ cur →
      (∃ e ∈ fr, e.2 = p ∧ e.1 ≤ v + hfun [g] p.1) ∨
      (p.1 ≠ g ∧ ∀ d2 : Dir, B p.1 p.2 d2 = true → inGrid (stepPos p d2) →
        ∃ v2, cost (stepPos p d2) = some v2 ∧ v2 ≤ v + 1))
    (hdone : ∀ d2 ∈ ds, B cur.1 cur.2 d2 = true → inGrid (stepPos cur d2) →
      ∃ v2, cost (stepPos cur d2) = some v2 ∧ v2 ≤ v0 + 1)
    (hflag : B cur.1 cur.2 d = true) (hin : inGrid (stepPos cur d))
    (hcase : cost (stepPos cur d) = none ∨
      ∃ vv, cost (stepPos cur d) = some vv ∧ v0 + 1 < vv) :
    MidInv B s g cur v0 (d :: ds)
      (fr ++ [(v0 + 1 + hfun [g] (stepPos cur d).1, stepPos cur d)])
      (fun p => if p = stepPos cur d then some (v0 + 1) else cost p) := by
  set nxt := stepPos cur d with hnxt
  have hcurne : cur ≠ nxt := fun hq => stepPos_ne cur d hq.symm
  have hnotlt : ∀ u, cost nxt = some u → ¬ u < v0 + 1 := by
    intro u hu
    rcases hcase with hc | ⟨vv, hc, hvv⟩
    · rw [hc] at hu
      cases hu
    · rw [hc, Option.some.injEq] at hu
      omega
  refine ⟨?_, ?_, ?_, ?_, ?_, ?_, ?_⟩
  · -- sound
    intro p v hp
    by_cases hpn : p = nxt
    · subst hpn
      rw [if_pos rfl, Option.some.injEq] at hp
      rw [← hp, hnxt]
      exact Walk.snoc d (hsound cur v0 hcur) hflag hin
    · rw [if_neg hpn] at hp
      exact hsound p v hp
  · -- costS
    by_cases hsn : s = nxt
    · exfalso
      rw [← hsn] at hcase
      rcases hcase with hc | ⟨vv, hc, hvv⟩
      · rw [hcostS] at hc
        cases hc
      · rw [hcostS, Option.some.injEq] at hc
        omega
    · rw [if_neg hsn]
      exact hcostS
  · -- front
    intro e he
    rw [List.mem_append, List.mem_singleton] at he
    rcases he with he | rfl
    · obtain ⟨v, hev, hle⟩ := hfront e he
      by_cases hen : e.2 = nxt
      · rw [hen] at hev
        have := hnotlt v hev
        refine ⟨v0 + 1, ?_, by omega⟩
        rw [hen, if_pos rfl]
      · exact ⟨v, by rw [if_neg hen]; exact hev, hle⟩
    · exact ⟨v0 + 1, by rw [if_pos rfl], by omega⟩
  · -- bound
    intro p v hp
    by_cases hpn : p = nxt
    · subst hpn
      rw [if_pos rfl, Option.some.injEq] at hp
      subst hp
      have hcurgrid : cur ∈ grid81 :=
        inGrid_mem_grid81 (walk_inGrid (hsound cur v0 hcur)).2
      have hsub : insert cur (grid81.filter (fun q => costBelow cost v0 q)) ⊆
          grid81.filter (fun q => costBelow (fun p =>
            if p = nxt then some (v0 + 1) else cost p) (v0 + 1) q) := by
        intro q hq
        rw [Finset.mem_insert] at hq
        rcases hq with rfl | hq
        · rw [Finset.mem_filter]
          refine ⟨hcurgrid, ?_⟩
          rw [costBelow]
          rw [if_neg hcurne, hcur]
          simp
        · rw [Finset.mem_filter] at hq ⊢
          obtain ⟨hq1, hq2⟩ := hq
          rw [costBelow] at hq2
          rcases hu : cost q with _ | u
          · rw [hu] at hq2
            cases hq2
          rw [hu] at hq2
          simp only [decide_eq_true_eq] at hq2
          have hqn : q ≠ nxt := by
            intro hqq
            rw [hqq] at hu
            have := hnotlt u hu
            omega
          refine ⟨hq1, ?_⟩
          rw [costBelow, if_neg hqn, hu]
          simp only [decide_eq_true_eq]
          omega
      have hnotmem : cur ∉ grid81.filter (fun q => costBelow cost v0 q) := by
        rw [Finset.mem_filter]
        rintro ⟨_, hc2⟩
        rw [costBelow, hcur] at hc2
        simp at hc2
      have hcard := Finset.card_le_card hsub
      rw [Finset.card_insert_of_not_mem hnotmem] at hcard
      have := hbound cur v0 hcur
      omega
    · rw [if_neg hpn] at hp
      have hb := hbound p v hp
      have hsub : grid81.filter (fun q => costBelow cost v q) ⊆
          grid81.filter (fun q => costBelow (fun p2 =>
            if p2 = nxt then some (v0 + 1) else cost p2) v q) := by
        intro q hq
        rw [Finset.mem_filter] at hq ⊢
        obtain ⟨hq1, hq2⟩ := hq
        rw [costBelow] at hq2
        rcases hu : cost q with _ | u
        · rw [hu] at hq2
          cases hq2
        rw [hu] at hq2
        simp only [decide_eq_true_eq] at hq2
        refine ⟨hq1, ?_⟩
        by_cases hqn : q = nxt
        · rw [costBelow, if_pos hqn]
          simp only [decide_eq_true_eq]
          rw [hqn] at hu
          have := hnotlt u hu
          omega
        · rw [costBelow, if_neg hqn, hu]
          simp only [decide_eq_true_eq]
          omega
      exact hb.trans (Finset.card_le_card hsub)
  · -- cur_eq
    rw [if_neg hcurne]
    exact hcur
  · -- others
    intro p v hp hpcur
    by_cases hpn : p = nxt
    · subst hpn
      rw [if_pos rfl, Option.some.injEq] at hp
      left
      refine ⟨(v0 + 1 + hfun [g] nxt.1, nxt), ?_, rfl, by omega⟩
      rw [List.mem_append, List.mem_singleton]
      right
      rfl
    · rw [if_neg hpn] at hp
      rcases hothers p v hp hpcur with ⟨e, he, he2, he1⟩ | ⟨hpg, hnb⟩
      · left
        exact ⟨e, List.mem_append_left _ he, he2, he1⟩
      · right
        refine ⟨hpg, ?_⟩
        intro d2 hf2 hin2
        obtain ⟨v2, hv2, hle2⟩ := hnb d2 hf2 hin2
        by_cases hqn : stepPos p d2 = nxt
        · rw [hqn] at hv2
          have := hnotlt v2 hv2
          refine ⟨v0 + 1, ?_, by omega⟩
          rw [hqn, if_pos rfl]
        · exact ⟨v2, by rw [if_neg hqn]; exact hv2, hle2⟩
  · -- done
    intro d2 hd2 hf2 hin2
    rw [List.mem_cons] at hd2
    rcases hd2 with rfl | hd2
    · exact ⟨v0 + 1, by rw [if_pos rfl], le_refl _⟩
    · obtain ⟨v2, hv2, hle2⟩ := hdone d2 hd2 hf2 hin2
      by_cases hqn : stepPos cur d2 = nxt
      · rw [hqn] at hv2
        have := hnotlt v2 hv2
        exact ⟨v0 + 1, by rw [hqn, if_pos rfl], le_refl _⟩
      · exact ⟨v2, by rw [if_neg hqn]; exact hv2, hle2⟩

theorem relaxDir_cases {B : ABoard} {g : ℤ} {cur : Pos} {v0 : ℕ}
    {fr : List Entry} {cost : CostMap} (d : Dir) :
    (relaxDir B [g] cur v0 d (fr, cost) = (fr, cost) ∧
      (B cur.1 cur.2 d = true → inGrid (stepPos cur d) →
        ∃ v2, cost (stepPos cur d) = some v2 ∧ v2 ≤ v0 + 1)) ∨
    (B cur.1 cur.2 d = true ∧ inGrid (stepPos cur d) ∧
      (cost (stepPos cur d) = none ∨
        ∃ vv, cost (stepPos cur d) = some vv ∧ v0 + 1 < vv) ∧
      relaxDir B [g] cur v0 d (fr, cost) =
        (fr ++ [(v0 + 1 + hfun [g] (stepPos cur d).1, stepPos cur d)],
         fun p => if p = stepPos cur d then some (v0 + 1) else cost p)) := by
  rcases hflag : B cur.1 cur.2 d with _ | _
  · left
    constructor
    · simp [relaxDir, hflag]
    · intro hf
      simp at hf
  · by_cases hin : inGrid (stepPos cur d)
    · rcases hc : cost (stepPos cur d) with _ | vv
      · right
        refine ⟨rfl, hin, Or.inl rfl, ?_⟩
        simp [relaxDir, hflag, hin, hc]
      · by_cases hlt : v0 + 1 < vv
        · right
          refine ⟨rfl, hin, Or.inr ⟨vv, rfl, hlt⟩, ?_⟩
          simp [relaxDir, hflag, hin, hc, hlt]
        · left
          constructor
          · simp [relaxDir, hflag, hin, hc, hlt]
          · intro _ _
            exact ⟨vv, rfl, by omega⟩
    · left
      constructor
      · simp [relaxDir, hflag, hin]
      · intro _ hi
        exact absurd hi hin

theorem relaxDir_mid {B : ABoard} {s : Pos} {g : ℤ} {cur : Pos} {v0 : ℕ}
    {ds : List Dir} {fr : List Entry} {cost : CostMap} (d : Dir)
    (hmid : MidInv B s g cur v0 ds fr cost) :
    MidInv B s g cur v0 (d :: ds)
      (relaxDir B [g] cur v0 d (fr, cost)).1
      (relaxDir B [g] cur v0 d (fr, cost)).2 := by
  obtain ⟨hsound, hcostS, hfront, hbound, hcur, hothers, hdone⟩ := hmid
  rcases @relaxDir_cases B g cur v0 fr cost d with ⟨heq, hskip⟩ | ⟨hflag, hin, hcase, heq⟩
  · rw [heq]
    refine ⟨hsound, hcostS, hfront, hbound, hcur, hothers, ?_⟩
    intro d2 hd2 hf2 hin2
    rw [List.mem_cons] at hd2
    rcases hd2 with rfl | hd2
    · exact hskip hf2 hin2
    · exact hdone d2 hd2 hf2 hin2
  · rw [heq]
    exact relax_update_mid d hsound hcostS hfront hbound hcur hothers hdone
      hflag hin hcase

theorem grid81_card : grid81.card = 81 := by decide

theorem Phi_update {cost : CostMap} {nxt : Pos} (hg : nxt ∈ grid81) (w : ℕ) :
    Phi (fun p => if p = nxt then some w else cost p) + pot cost nxt =
      Phi cost + w := by
  unfold Phi
  rw [← Finset.sum_erase_add _ _ hg, ← Finset.sum_erase_add _ _ hg]
  have hcong : ∀ q ∈ grid81.erase nxt,
      pot (fun p => if p = nxt then some w else cost p) q = pot cost q := by
    intro q hq
    have hqn : q ≠ nxt := Finset.ne_of_mem_erase hq
    rw [pot, pot, if_neg hqn]
  rw [Finset.sum_congr rfl hcong]
  have : pot (fun p => if p = nxt then some w else cost p) nxt = w := by
    rw [pot, if_pos rfl]
  rw [this, show (∑ x ∈ grid81.erase nxt, pot cost x) =
    (grid81.erase nxt).sum (pot cost) from rfl]
  omega

theorem relaxDir_measure {B : ABoard} {s : Pos} {g : ℤ} {cur : Pos}
    {v0 : ℕ} {ds : List Dir} {fr : List Entry} {cost : CostMap} (d : Dir)
    (hmid : MidInv B s g cur v0 ds fr cost) :
    kMeasure (relaxDir B [g] cur v0 d (fr, cost)).1
        (relaxDir B [g] cur v0 d (fr, cost)).2 ≤ kMeasure fr cost := by
  obtain ⟨hsound, hcostS, hfront, hbound, hcur, hothers, hdone⟩ := hmid
  rcases @relaxDir_cases B g cur v0 fr cost d with ⟨heq, _⟩ | ⟨hflag, hin, hcase, heq⟩
  · rw [heq]
  · rw [heq]
    have hg : stepPos cur d ∈ grid81 := inGrid_mem_grid81 hin
    have hcurgrid : cur ∈ grid81 :=
      inGrid_mem_grid81 (walk_inGrid (hsound cur v0 hcur)).2
    have hphi := @Phi_update cost _ hg (v0 + 1)
    have hlen : (fr ++ [(v0 + 1 + hfun [g] (stepPos cur d).1,
        stepPos cur d)]).length = fr.length + 1 := by
      simp
    -- the replaced potential strictly exceeds the new cost
    have hpot : v0 + 1 < pot cost (stepPos cur d) := by
      rcases hcase with hc | ⟨vv, hc, hvv⟩
      · -- absent: show `v0 ≤ 79` from the bound invariant
        simp only [pot, hc]
        have hb := hbound cur v0 hcur
        have hsub : grid81.filter (fun q => costBelow cost v0 q) ⊆
            (grid81.erase (stepPos cur d)).erase cur := by
          intro q hq
          rw [Finset.mem_filter] at hq
          obtain ⟨hq1, hq2⟩ := hq
          rw [costBelow] at hq2
          rcases hu : cost q with _ | u
          · rw [hu] at hq2
            cases hq2
          rw [hu] at hq2
          simp only [decide_eq_true_eq] at hq2
          have hqn : q ≠ stepPos cur d := by
            intro hqq
            rw [hqq, hc] at hu
            cases hu
          have hqc : q ≠ cur := by
            intro hqq
            rw [hqq, hcur, Option.some.injEq] at hu
            omega
          exact Finset.mem_erase_of_ne_of_mem hqc
            (Finset.mem_erase_of_ne_of_mem hqn hq1)
        have hcard := Finset.card_le_card hsub
        have h1 : (grid81.erase (stepPos cur d)).card = 80 := by
          rw [Finset.card_erase_of_mem hg, grid81_card]
        have h2 : ((grid81.erase (stepPos cur d)).erase cur).card = 79 := by
          rw [Finset.card_erase_of_mem (Finset.mem_erase_of_ne_of_mem
            (Ne.symm (stepPos_ne cur d)) hcurgrid), h1]
        omega
      · simp only [pot, hc]
        omega
    simp only [kMeasure, List.length_append, List.length_singleton]
    omega

theorem relaxDir_mid2 {B : ABoard} {s : Pos} {g : ℤ} {cur : Pos} {v0 : ℕ}
    {ds : List Dir} {a : List Entry × CostMap} (d : Dir)
    (hmid : MidInv B s g cur v0 ds a.1 a.2) :
    MidInv B s g cur v0 (d :: ds)
      (relaxDir B [g] cur v0 d a).1 (relaxDir B [g] cur v0 d a).2 := by
  obtain ⟨fr, cost⟩ := a
  exact relaxDir_mid d hmid

theorem relaxDir_measure2 {B : ABoard} {s : Pos} {g : ℤ} {cur : Pos}
    {v0 : ℕ} {ds : List Dir} {a : List Entry × CostMap} (d : Dir)
    (hmid : MidInv B s g cur v0 ds a.1 a.2) :
    kMeasure (relaxDir B [g] cur v0 d a).1
      (relaxDir B [g] cur v0 d a).2 ≤ kMeasure a.1 a.2 := by
  obtain ⟨fr, cost⟩ := a
  exact relaxDir_measure d hmid

theorem pop_to_mid {B : ABoard} {s : Pos} {g : ℤ} {frontier : List Entry}
    {cost : CostMap} {m : Entry} {rest : List Entry}
    (hinv : AStarInv B s g frontier cost)
    (hpop : popMin frontier = some (m, rest)) :
    ∃ v0, cost m.2 = some v0 ∧ v0 ≤ m.1 ∧
      MidInv B s g m.2 v0 [] rest cost := by
  obtain ⟨hmem, hrest, hmin⟩ := popMin_spec hpop
  obtain ⟨v0, hv0, hle⟩ := hinv.front m hmem
  refine ⟨v0, hv0, hle, hinv.sound, hinv.costS, ?_, hinv.bound, hv0, ?_, by simp⟩
  · intro e he
    rw [hrest] at he
    exact hinv.front e (List.erase_subset _ _ he)
  · intro p v hp hpcur
    rcases hinv.reach p v hp with ⟨e, he, he2, he1⟩ | hr
    · left
      refine ⟨e, ?_, he2, he1⟩
      rw [hrest]
      have hne : e ≠ m := by
        intro hq
        rw [hq] at he2
        exact hpcur he2.symm
      exact (List.mem_erase_of_ne hne).mpr he
    · right
      exact hr

theorem mid_to_inv {B : ABoard} {s : Pos} {g : ℤ} {cur : Pos} {v0 : ℕ}
    {fr : List Entry} {cost : CostMap} (hcurg : cur.1 ≠ g)
    (hmid : MidInv B s g cur v0 [Dir.R, Dir.L, Dir.D, Dir.U] fr cost) :
    AStarInv B s g fr cost := by
  refine ⟨hmid.sound, hmid.costS, hmid.front, hmid.bound, ?_⟩
  intro p v hp
  by_cases hpc : p = cur
  · subst hpc
    right
    refine ⟨hcurg, ?_⟩
    intro d hf hi
    have hvv : v = v0 := by
      rw [hmid.cur_eq, Option.some.injEq] at hp
      exact hp.symm
    rw [hvv]
    exact hmid.done d (by cases d <;> simp) hf hi
  · exact hmid.others p v hp hpc

theorem inv_progress {B : ABoard} {s : Pos} {g : ℤ} {frontier : List Entry}
    {cost : CostMap} {L : ℕ} {cg : Pos}
    (hinv : AStarInv B s g frontier cost)
    (hwalkg : Walk B s cg L) (hrowg : cg.1 = g)
    (hminopt : ∀ n, GoalReach B s g n → L ≤ n) :
    ∃ e ∈ frontier, e.1 ≤ L := by
  suffices h : ∀ m, ∀ c : Pos, ∀ i : ℕ, Walk B s c i → Walk B c cg m →
      i + m = L → cost c = some i → ∃ e ∈ frontier, e.1 ≤ L by
    exact h L s 0 (Walk.nil s (walk_inGrid hwalkg).1) hwalkg (by omega)
      hinv.costS
  intro m
  induction m using Nat.strong_induction_on with
  | _ m ih =>
    intro c i hwi hwm hsum hci
    rcases hinv.reach c i hci with ⟨e, he, he2, he1⟩ | ⟨hcg, hnb⟩
    · refine ⟨e, he, ?_⟩
      have hrow := walk_row hwm
      have hhf : hfun [g] c.1 ≤ m := by
        have habs : (g - c.1).natAbs = (c.1 - cg.1).natAbs := by
          rw [hrowg]
          omega
        rw [hfun]
        simp only [List.headI]
        omega
      omega
    · have hm0 : m ≠ 0 := by
        intro h0
        subst h0
        have := walk_zero hwm
        rw [this] at hrowg
        exact hcg hrowg
      obtain ⟨m2, rfl⟩ : ∃ m2, m = m2 + 1 := ⟨m - 1, by omega⟩
      obtain ⟨d, hf, hi, hw2⟩ := walk_front hwm
      obtain ⟨v2, hv2, hle2⟩ := hnb d hf hi
      have hwi2 : Walk B s (stepPos c d) (i + 1) := Walk.snoc d hwi hf hi
      have hsound2 := hinv.sound _ v2 hv2
      have hgoal : GoalReach B s g (v2 + m2) :=
        ⟨cg, walk_trans hsound2 hw2, hrowg⟩
      have hge := hminopt _ hgoal
      have hv2eq : v2 = i + 1 := by omega
      rw [hv2eq] at hv2
      exact ih m2 (by omega) (stepPos c d) (i + 1) hwi2 hw2 (by omega) hv2

theorem aStarLoop_reach {B : ABoard} {s : Pos} {g : ℤ}
    (hex : ∃ n, GoalReach B s g n) :
    ∀ (fuel : ℕ) (frontier : List Entry) (cost : CostMap),
      AStarInv B s g frontier cost → kMeasure frontier cost < fuel →
      aStarLoop B [g] fuel frontier cost =
        ((sInf { n | GoalReach B s g n } : ℕ) : ℕ∞) := by
  have hmemL : GoalReach B s g (sInf { n | GoalReach B s g n }) := by
    obtain ⟨n, hn⟩ := hex
    exact Nat.sInf_mem (⟨n, hn⟩ : { n | GoalReach B s g n }.Nonempty)
  obtain ⟨cg, hwalkg, hrowg⟩ := hmemL
  have hminopt : ∀ n, GoalReach B s g n →
      sInf { n | GoalReach B s g n } ≤ n := fun n hn => Nat.sInf_le hn
  intro fuel
  induction fuel with
  | zero =>
    intro frontier cost _ hk
    omega
  | succ fuel ih =>
    intro frontier cost hinv hk
    obtain ⟨ew, hew, hewL⟩ := inv_progress hinv hwalkg hrowg hminopt
    have hne : frontier ≠ [] := by
      intro h0
      rw [h0] at hew
      cases hew
    obtain ⟨m, rest, hpop⟩ := popMin_nonempty hne
    obtain ⟨hmmem, hrest, hmins⟩ := popMin_spec hpop
    have hmL : m.1 ≤ sInf { n | GoalReach B s g n } :=
      le_trans (not_entLT_fst (hmins ew hew)) hewL
    obtain ⟨mp, mc⟩ := m
    simp only [aStarLoop, hpop]
    by_cases hgl : mc.1 ∈ ([g] : List ℤ)
    · rw [if_pos hgl]
      rw [List.mem_singleton] at hgl
      obtain ⟨v, hv, hvle⟩ := hinv.front (mp, mc) hmmem
      have hreach : GoalReach B s g v := ⟨mc, hinv.sound mc v hv, hgl⟩
      have hvL : v = sInf { n | GoalReach B s g n } := by
        have := hminopt v hreach
        simp only at hvle
        omega
      rw [hv, hvL]
    · rw [if_neg hgl]
      rw [List.mem_singleton] at hgl
      obtain ⟨v0, hv0, hv0le, hmid0⟩ := pop_to_mid hinv hpop
      simp only at hv0 hmid0
      rw [hv0]
      have hmid1 := relaxDir_mid2 Dir.U (a := (rest, cost)) hmid0
      have hmid2 := relaxDir_mid2 Dir.D hmid1
      have hmid3 := relaxDir_mid2 Dir.L hmid2
      have hmid4 := relaxDir_mid2 Dir.R hmid3
      have hinv2 := mid_to_inv hgl hmid4
      have hk1 := relaxDir_measure2 Dir.U (a := (rest, cost)) hmid0
      have hk2 := relaxDir_measure2 Dir.D hmid1
      have hk3 := relaxDir_measure2 Dir.L hmid2
      have hk4 := relaxDir_measure2 Dir.R hmid3
      have hlen : rest.length = frontier.length - 1 := by
        rw [hrest]
        exact List.length_erase_of_mem hmmem
      have hflen : 1 ≤ frontier.length := by
        rcases frontier with _ | ⟨x, xs⟩
        · exact absurd rfl hne
        · simp
      have hkr : kMeasure rest cost < kMeasure frontier cost := by
        rw [kMeasure, kMeasure, hlen]
        omega
      exact ih _ _ hinv2 (by
        have := le_trans hk4 (le_trans hk3 (le_trans hk2 hk1))
        simp only [kMeasure] at *
        omega)

theorem aStarLoop_unreach {B : ABoard} {s : Pos} {g : ℤ}
    (hex : ¬ ∃ n, GoalReach B s g n) :
    ∀ (fuel : ℕ) (frontier : List Entry) (cost : CostMap),
      AStarInv B s g frontier cost → kMeasure frontier cost < fuel →
      aStarLoop B [g] fuel frontier cost = ⊤ := by
  intro fuel
  induction fuel with
  | zero =>
    intro frontier cost _ hk
    omega
  | succ fuel ih =>
    intro frontier cost hinv hk
    rcases hfr : popMin frontier with _ | ⟨⟨mp, mc⟩, rest⟩
    · simp only [aStarLoop, hfr]
    · obtain ⟨hmmem, hrest, hmins⟩ := popMin_spec hfr
      simp only [aStarLoop, hfr]
      by_cases hgl : mc.1 ∈ ([g] : List ℤ)
      · exfalso
        rw [List.mem_singleton] at hgl
        obtain ⟨v, hv, _⟩ := hinv.front (mp, mc) hmmem
        exact hex ⟨v, mc, hinv.sound mc v hv, hgl⟩
      · rw [if_neg hgl]
        rw [List.mem_singleton] at hgl
        obtain ⟨v0, hv0, hv0le, hmid0⟩ := pop_to_mid hinv hfr
        simp only at hv0 hmid0
        rw [hv0]
        have hmid1 := relaxDir_mid2 Dir.U (a := (rest, cost)) hmid0
        have hmid2 := relaxDir_mid2 Dir.D hmid1
        have hmid3 := relaxDir_mid2 Dir.L hmid2
        have hmid4 := relaxDir_mid2 Dir.R hmid3
        have hinv2 := mid_to_inv hgl hmid4
        have hk1 := relaxDir_measure2 Dir.U (a := (rest, cost)) hmid0
        have hk2 := relaxDir_measure2 Dir.D hmid1
        have hk3 := relaxDir_measure2 Dir.L hmid2
        have hk4 := relaxDir_measure2 Dir.R hmid3
        have hlen : rest.length = frontier.length - 1 := by
          rw [hrest]
          exact List.length_erase_of_mem hmmem
        have hflen : 1 ≤ frontier.length := by
          rcases frontier with _ | ⟨x, xs⟩
          · cases hfr
          · simp
        exact ih _ _ hinv2 (by
          have := le_trans hk4 (le_trans hk3 (le_trans hk2 hk1))
          simp only [kMeasure] at *
          omega)

theorem init_inv {B : ABoard} {s : Pos} {g : ℤ} (hin : inGrid s) :
    AStarInv B s g [(0, s)] (fun p => if p = s then some 0 else none) := by
  refine ⟨?_, by simp, ?_, ?_, ?_⟩
  · intro p v hp
    by_cases hps : p = s
    · subst hps
      simp at hp
      cases hp
      exact Walk.nil p hin
    · simp only [if_neg hps] at hp
      cases hp
  · intro e he
    simp only [List.mem_singleton] at he
    subst he
    exact ⟨0, by simp, le_refl 0⟩
  · intro p v hp
    by_cases hps : p = s
    · subst hps
      simp at hp
      omega
    · simp only [if_neg hps] at hp
      cases hp
  · intro p v hp
    by_cases hps : p = s
    · subst hps
      left
      exact ⟨(0, p), List.mem_singleton_self _, rfl, by omega⟩
    · simp only [if_neg hps] at hp
      cases hp

theorem init_measure {s : Pos} :
    kMeasure [(0, s)] (fun p => if p = s then some 0 else none) < 40000 := by
  have hPhi : Phi (fun p => if p = s then some 0 else none) ≤ 6561 := by
    rw [Phi]
    have hb : ∀ q ∈ grid81,
        pot (fun p => if p = s then some 0 else none) q ≤ 81 := by
      intro q _
      by_cases hqs : q = s
      · simp [pot, hqs]
      · simp [pot, hqs]
    calc ∑ q ∈ grid81, pot (fun p => if p = s then some 0 else none) q
        ≤ ∑ _q ∈ grid81, 81 := Finset.sum_le_sum hb
      _ = 6561 := by
          rw [Finset.sum_const, grid81_card]
          norm_num
  rw [kMeasure]
  simp only [List.length_singleton]
  omega

theorem aStar_eq_sInf {B : ABoard} {s : Pos} {g : ℤ} (hin : inGrid s)
    (hex : ∃ n, GoalReach B s g n) :
    aStar B s [g] = ((sInf { n | GoalReach B s g n } : ℕ) : ℕ∞) := by
  rw [aStar]
  exact aStarLoop_reach hex 40000 _ _ (init_inv hin) init_measure

theorem aStar_eq_top {B : ABoard} {s : Pos} {g : ℤ} (hin : inGrid s)
    (hex : ¬ ∃ n, GoalReach B s g n) :
    aStar B s [g] = ⊤ := by
  rw [aStar]
  exact aStarLoop_unreach hex 40000 _ _ (init_inv hin) init_measure

theorem initGame_dirs_D (i j : Fin 9) (h : i ≠ 8) :
    (initGame.grid i j).dirs Dir.D = true := by
  revert i j
  decide

theorem initBoard_U {a b : ℤ} (h1 : 1 ≤ a) (h9 : a < 9) (hb0 : 0 ≤ b)
    (hb9 : b < 9) : boardOf initGame a b Dir.U = true := by
  obtain ⟨i, hi⟩ := exists_fin_coe (by omega : (0:ℤ) ≤ a) h9
  obtain ⟨j, hj⟩ := exists_fin_coe hb0 hb9
  rw [← hi, ← hj]
  simp only [boardOf, pyIdx_coe]
  apply initGame_dirs_U
  intro h0
  rw [h0] at hi
  simp only [Fin.val_zero, Int.ofNat_eq_coe] at hi
  omega

theorem initBoard_D {a b : ℤ} (h1 : 0 ≤ a) (h8 : a < 8) (hb0 : 0 ≤ b)
    (hb9 : b < 9) : boardOf initGame a b Dir.D = true := by
  obtain ⟨i, hi⟩ := exists_fin_coe h1 (by omega)
  obtain ⟨j, hj⟩ := exists_fin_coe hb0 hb9
  rw [← hi, ← hj]
  simp only [boardOf, pyIdx_coe]
  apply initGame_dirs_D
  intro h0
  rw [h0] at hi
  have : ((8 : Fin 9) : ℤ) = 8 := by decide
  omega

theorem walk_vert_up {B : ABoard} {r c : ℤ} (hin : inGrid (r, c))
    (hU : ∀ a b : ℤ, 1 ≤ a → a < 9 → 0 ≤ b → b < 9 → B a b Dir.U = true) :
    ∀ k : ℕ, (k : ℤ) ≤ r → Walk B (r, c) (r - k, c) k := by
  obtain ⟨hr0, hr9, hc0, hc9⟩ := hin
  intro k
  induction k with
  | zero =>
    intro _
    have he : ((r - ((0:ℕ):ℤ), c) : Pos) = (r, c) := by norm_num
    rw [he]
    exact Walk.nil _ ⟨hr0, hr9, hc0, hc9⟩
  | succ k ih =>
    intro hk
    have hk2 : (k : ℤ) + 1 ≤ r := by push_cast at hk; omega
    have hw := ih (by omega)
    have hflag : B (r - k) c Dir.U = true :=
      hU _ _ (by omega) (by omega) hc0 hc9
    have hstep : stepPos (r - k, c) Dir.U = (r - ((k+1 : ℕ) : ℤ), c) := by
      simp only [stepPos, delta]
      push_cast
      rw [Prod.mk.injEq]
      exact ⟨by ring, by ring⟩
    have hin2 : inGrid (stepPos (r - k, c) Dir.U) := by
      rw [hstep]
      exact ⟨by push_cast; omega, by push_cast; omega, hc0, hc9⟩
    have hres := Walk.snoc Dir.U hw hflag hin2
    rw [hstep] at hres
    exact hres

theorem walk_vert_down {B : ABoard} {r c : ℤ} (hin : inGrid (r, c))
    (hD : ∀ a b : ℤ, 0 ≤ a → a < 8 → 0 ≤ b → b < 9 → B a b Dir.D = true) :
    ∀ k : ℕ, (k : ℤ) ≤ 8 - r → Walk B (r, c) (r + k, c) k := by
  obtain ⟨hr0, hr9, hc0, hc9⟩ := hin
  intro k
  induction k with
  | zero =>
    intro _
    have he : ((r + ((0:ℕ):ℤ), c) : Pos) = (r, c) := by norm_num
    rw [he]
    exact Walk.nil _ ⟨hr0, hr9, hc0, hc9⟩
  | succ k ih =>
    intro hk
    have hk2 : (k : ℤ) + 1 ≤ 8 - r := by push_cast at hk; omega
    have hw := ih (by omega)
    have hflag : B (r + k) c Dir.D = true :=
      hD _ _ (by omega) (by omega) hc0 hc9
    have hstep : stepPos (r + k, c) Dir.D = (r + ((k+1 : ℕ) : ℤ), c) := by
      simp only [stepPos, delta]
      push_cast
      rw [Prod.mk.injEq]
      exact ⟨by ring, by ring⟩
    have hin2 : inGrid (stepPos (r + k, c) Dir.D) := by
      rw [hstep]
      exact ⟨by push_cast; omega, by push_cast; omega, hc0, hc9⟩
    have hres := Walk.snoc Dir.D hw hflag hin2
    rw [hstep] at hres
    exact hres

theorem initBoard_dist_up (r c : ℤ) (hin : inGrid (r, c)) :
    aStar (boardOf initGame) (r, c) [0] = ((r.toNat : ℕ) : ℕ∞) := by
  obtain ⟨hr0, hr9, hc0, hc9⟩ := hin
  have hw : Walk (boardOf initGame) (r, c) (r - r.toNat, c) r.toNat :=
    walk_vert_up ⟨hr0, hr9, hc0, hc9⟩
      (fun a b u1 u2 u3 u4 => initBoard_U u1 u2 u3 u4) r.toNat (by omega)
  have hmem : GoalReach (boardOf initGame) (r, c) 0 r.toNat :=
    ⟨(r - r.toNat, c), hw, by show r - (r.toNat : ℤ) = 0; omega⟩
  have hex : ∃ n, GoalReach (boardOf initGame) (r, c) 0 n := ⟨_, hmem⟩
  rw [aStar_eq_sInf ⟨hr0, hr9, hc0, hc9⟩ hex]
  congr 1
  apply le_antisymm
  · exact Nat.sInf_le hmem
  · obtain ⟨c2, hw2, hc2⟩ := Nat.sInf_mem
      (⟨_, hmem⟩ : { n | GoalReach (boardOf initGame) (r, c) 0 n }.Nonempty)
    have hrow := walk_row hw2
    simp only at hrow
    rw [hc2] at hrow
    omega

theorem initBoard_dist_down (r c : ℤ) (hin : inGrid (r, c)) :
    aStar (boardOf initGame) (r, c) [8] = (((8 - r).toNat : ℕ) : ℕ∞) := by
  obtain ⟨hr0, hr9, hc0, hc9⟩ := hin
  have hw : Walk (boardOf initGame) (r, c) (r + (8 - r).toNat, c)
      (8 - r).toNat :=
    walk_vert_down ⟨hr0, hr9, hc0, hc9⟩
      (fun a b u1 u2 u3 u4 => initBoard_D u1 u2 u3 u4) (8 - r).toNat
      (by omega)
  have hmem : GoalReach (boardOf initGame) (r, c) 8 (8 - r).toNat :=
    ⟨(r + (8 - r).toNat, c), hw, by
      show r + ((8 - r).toNat : ℤ) = 8
      omega⟩
  have hex : ∃ n, GoalReach (boardOf initGame) (r, c) 8 n := ⟨_, hmem⟩
  rw [aStar_eq_sInf ⟨hr0, hr9, hc0, hc9⟩ hex]
  congr 1
  apply le_antisymm
  · exact Nat.sInf_le hmem
  · obtain ⟨c2, hw2, hc2⟩ := Nat.sInf_mem
      (⟨_, hmem⟩ : { n | GoalReach (boardOf initGame) (r, c) 8 n }.Nonempty)
    have hrow := walk_row hw2
    simp only at hrow
    rw [hc2] at hrow
    omega

/-- C3 (amended): on the wall-free initial board the search returns
exactly `r` towards goal row 0 and exactly `8 - r` towards goal row 8
from every in-grid cell `(r, c)`; and for every board, every in-grid
start and every SINGLE goal row, `a_star` returns the exact minimum
number of admissible single steps to the goal row, or the sentinel `⊤`
when the goal row is unreachable.  The original claim's "every
goal-row set" fails: with several goal rows the pushed priority uses
the inadmissible heuristic `abs(goal_rows[0] - row)` — see the
counterexample. -/
theorem c3_astar_shortest (r c : ℤ) (hin : inGrid (r, c))
    (B : ABoard) (s : Pos) (g : ℤ) (hs : inGrid s) :
    aStar (boardOf initGame) (r, c) [0] = ((r.toNat : ℕ) : ℕ∞) ∧
    aStar (boardOf initGame) (r, c) [8] = (((8 - r).toNat : ℕ) : ℕ∞) ∧
    ((∃ n, GoalReach B s g n) →
      aStar B s [g] = ((sInf { n | GoalReach B s g n } : ℕ) : ℕ∞)) ∧
    ((¬ ∃ n, GoalReach B s g n) → aStar B s [g] = ⊤) :=
  ⟨initBoard_dist_up r c hin, initBoard_dist_down r c hin,
   fun hex => aStar_eq_sInf hs hex, fun hex => aStar_eq_top hs hex⟩

theorem c3_astar_shortest_witness :
    inGrid ((5:ℤ), (4:ℤ)) ∧
    (aStar (boardOf initGame) (5, 4) [0] = (((5:ℤ).toNat : ℕ) : ℕ∞) ∧
     aStar (boardOf initGame) (5, 4) [8] = ((((8:ℤ) - 5).toNat : ℕ) : ℕ∞) ∧
     ((∃ n, GoalReach (boardOf initGame) (5, 4) 0 n) →
       aStar (boardOf initGame) (5, 4) [0] =
         ((sInf { n | GoalReach (boardOf initGame) (5, 4) 0 n } : ℕ) : ℕ∞)) ∧
     ((¬ ∃ n, GoalReach (boardOf initGame) (5, 4) 0 n) →
       aStar (boardOf initGame) (5, 4) [0] = ⊤)) :=
  ⟨by decide,
   c3_astar_shortest 5 4 (by decide) (boardOf initGame) (5, 4) 0 (by decide)⟩

/-- Counterexample to C3's "for every ... goal-row set": with goal
rows `[0, 8]`, every step open and start `(5, 0)`, the search returns
5 (the heuristic `abs(goal_rows[0] - row)` pulls it all the way up to
row 0) while the true minimum over both goal rows is 3 (three steps
down to row 8). -/
theorem c3_multi_goal_counterexample :
    aStar (fun _ _ _ => true) ((5:ℤ), (0:ℤ)) [0, 8] ≠
      ((sInf { n | GoalReachL (fun _ _ _ => true) (5, 0) [0, 8] n } : ℕ) :
        ℕ∞) := by
  have h5 : aStar (fun _ _ _ => true) ((5:ℤ), (0:ℤ)) [0, 8] =
      ((5:ℕ) : ℕ∞) := by decide
  have hwd := walk_vert_down (B := fun _ _ _ => true) (r := 5) (c := 0)
      (by decide) (fun a b u1 u2 u3 u4 => rfl) 3 (by norm_num)
  have he : (((5:ℤ) + ((3:ℕ):ℤ), (0:ℤ)) : Pos) = ((8:ℤ), (0:ℤ)) := by
    norm_num
  rw [he] at hwd
  have hmem : GoalReachL (fun _ _ _ => true) ((5:ℤ), (0:ℤ)) [0, 8] 3 :=
    ⟨(8, 0), hwd, by decide⟩
  have hlow : ∀ n, GoalReachL (fun _ _ _ => true) ((5:ℤ), (0:ℤ)) [0, 8] n →
      3 ≤ n := by
    intro n hn
    obtain ⟨c2, hw2, hc2⟩ := hn
    have hrow := walk_row hw2
    simp only [List.mem_cons, List.mem_singleton, List.not_mem_nil,
      or_false] at hc2
    rcases hc2 with h0 | h8
    · rw [h0] at hrow
      simp only at hrow
      omega
    · rw [h8] at hrow
      simp only at hrow
      omega
  have hne : { n | GoalReachL (fun _ _ _ => true) ((5:ℤ), (0:ℤ))
      [0, 8] n }.Nonempty := ⟨3, hmem⟩
  have h3 : sInf { n | GoalReachL (fun _ _ _ => true) ((5:ℤ), (0:ℤ))
      [0, 8] n } = 3 :=
    le_antisymm (Nat.sInf_le hmem) (hlow _ (Nat.sInf_mem hne))
  rw [h5, h3]
  decide

end Quoridor
